import Mathlib

set_option maxHeartbeats 1000000
set_option maxRecDepth 4000

/-!
Verification development for the `jcs` package, a Go implementation of the
JSON Canonicalization Scheme (RFC 8785).  Strings are modelled as lists of
bytes (`List Nat`, each element < 256), UTF-16 code units as lists of `Nat`
(each < 2^16), and every fallible encoder returns its buffer together with an
`Option Err`, mirroring Go's `([]byte, error)` convention.
-/

namespace JCS

/-- Error kinds of the package (errors.go): sentinel values
ErrUnsupportedType, ErrNaN, ErrInf, ErrInvalidUTF8, ErrNumberOOR. -/
inductive Err where
  | unsupportedType
  | nan
  | inf
  | invalidUTF8
  | numberOOR
deriving DecidableEq

/-- Lower bound of the acceptance range for the second byte of a multi-byte
UTF-8 sequence, by leading byte, from Go's `utf8.acceptRanges` table. -/
def accLo (b0 : Nat) : Nat :=
  if b0 = 0xE0 then 0xA0 else if b0 = 0xF0 then 0x90 else 0x80

/-- Upper bound of the acceptance range for the second byte of a multi-byte
UTF-8 sequence, by leading byte, from Go's `utf8.acceptRanges` table. -/
def accHi (b0 : Nat) : Nat :=
  if b0 = 0xED then 0x9F else if b0 = 0xF4 then 0x8F else 0xBF

/-- Model of Go `utf8.DecodeRuneInString` on a byte list: returns the decoded
Unicode scalar value and the number of bytes consumed.  An empty input yields
(RuneError, 0); a malformed, overlong, surrogate, out-of-range or truncated
sequence yields (RuneError, 1); RuneError is U+FFFD.  The second-byte
acceptance ranges (`accLo`/`accHi`) are those of Go's `acceptRanges` table,
which excludes overlong forms, surrogates and code points above U+10FFFF.
Masking `b &&& 0x3F` of an accepted continuation byte equals `b - 0x80`, and
similarly for the leading-byte masks. -/
def decodeRune : List Nat → Nat × Nat
  | [] => (0xFFFD, 0)
  | b0 :: rest =>
    if b0 < 0x80 then (b0, 1)
    else if b0 < 0xC2 then (0xFFFD, 1)
    else if b0 ≤ 0xDF then
      match rest with
      | b1 :: _ =>
        if 0x80 ≤ b1 ∧ b1 ≤ 0xBF then ((b0 - 0xC0) * 0x40 + (b1 - 0x80), 2)
        else (0xFFFD, 1)
      | [] => (0xFFFD, 1)
    else if b0 ≤ 0xEF then
      match rest with
      | b1 :: b2 :: _ =>
        if accLo b0 ≤ b1 ∧ b1 ≤ accHi b0 ∧ 0x80 ≤ b2 ∧ b2 ≤ 0xBF then
          ((b0 - 0xE0) * 0x1000 + (b1 - 0x80) * 0x40 + (b2 - 0x80), 3)
        else (0xFFFD, 1)
      | _ => (0xFFFD, 1)
    else if b0 ≤ 0xF4 then
      match rest with
      | b1 :: b2 :: b3 :: _ =>
        if accLo b0 ≤ b1 ∧ b1 ≤ accHi b0 ∧ 0x80 ≤ b2 ∧ b2 ≤ 0xBF ∧ 0x80 ≤ b3 ∧ b3 ≤ 0xBF then
          ((b0 - 0xF0) * 0x40000 + (b1 - 0x80) * 0x1000 + (b2 - 0x80) * 0x40 + (b3 - 0x80), 4)
        else (0xFFFD, 1)
      | _ => (0xFFFD, 1)
    else (0xFFFD, 1)

/-- Canonical UTF-8 encoding of a Unicode scalar value, the unique byte
sequence Go's decoder accepts for that scalar. -/
def utf8Encode (r : Nat) : List Nat :=
  if r < 0x80 then [r]
  else if r < 0x800 then [0xC0 + r / 0x40, 0x80 + r % 0x40]
  else if r < 0x10000 then
    [0xE0 + r / 0x1000, 0x80 + r / 0x40 % 0x40, 0x80 + r % 0x40]
  else [0xF0 + r / 0x40000, 0x80 + r / 0x1000 % 0x40, 0x80 + r / 0x40 % 0x40, 0x80 + r % 0x40]

/-- Unicode scalar values: code points up to U+10FFFF minus the surrogates. -/
def scalarOK (r : Nat) : Prop := r < 0xD800 ∨ (0xDFFF < r ∧ r ≤ 0x10FFFF)

instance (r : Nat) : Decidable (scalarOK r) := by unfold scalarOK; infer_instance

/-- Arithmetic helper: a two-byte sequence accepted by the decoder encodes its
decoded scalar canonically, and that scalar is a genuine scalar value. -/
theorem utf8Encode_two {b0 b1 : Nat} (h0 : 0xC2 ≤ b0) (h0' : b0 ≤ 0xDF)
    (h1 : 0x80 ≤ b1) (h1' : b1 ≤ 0xBF) :
    utf8Encode ((b0 - 0xC0) * 0x40 + (b1 - 0x80)) = [b0, b1] ∧
      scalarOK ((b0 - 0xC0) * 0x40 + (b1 - 0x80)) := by
  constructor
  · unfold utf8Encode
    rw [if_neg (by omega), if_pos (by omega)]
    simp only [List.cons.injEq, and_true]
    constructor <;> omega
  · exact Or.inl (by omega)

/-- Arithmetic helper: a three-byte sequence accepted by the decoder encodes
its decoded scalar canonically, and that scalar is a genuine scalar value (the
0xE0/0xED acceptance rows exclude overlong forms and surrogates). -/
theorem utf8Encode_three {b0 b1 b2 : Nat} (h0 : 0xE0 ≤ b0) (h0' : b0 ≤ 0xEF)
    (hl : 0x80 ≤ b1) (hlE : b0 = 0xE0 → 0xA0 ≤ b1)
    (hh : b1 ≤ 0xBF) (hhE : b0 = 0xED → b1 ≤ 0x9F)
    (h2 : 0x80 ≤ b2) (h2' : b2 ≤ 0xBF) :
    utf8Encode ((b0 - 0xE0) * 0x1000 + (b1 - 0x80) * 0x40 + (b2 - 0x80)) = [b0, b1, b2] ∧
      scalarOK ((b0 - 0xE0) * 0x1000 + (b1 - 0x80) * 0x40 + (b2 - 0x80)) := by
  have hE0 : b0 = 0xE0 ∨ b0 = 0xED ∨ (0xE0 < b0 ∧ b0 < 0xED) ∨ 0xED < b0 := by omega
  have hstep : (b0 = 0xE0 → 0xA0 ≤ b1) → 0x800 ≤ (b0 - 0xE0) * 0x1000 + (b1 - 0x80) * 0x40 +
      (b2 - 0x80) := by
    intro hx
    rcases hE0 with h | h | h | h
    · have := hx h; omega
    · omega
    · omega
    · omega
  have hr2 : ¬((b0 - 0xE0) * 0x1000 + (b1 - 0x80) * 0x40 + (b2 - 0x80) < 0x800) := by
    have := hstep hlE; omega
  constructor
  · unfold utf8Encode
    rw [if_neg (by omega), if_neg hr2, if_pos (by omega)]
    simp only [List.cons.injEq, and_true]
    refine ⟨by omega, by omega, by omega⟩
  · rcases hE0 with h | h | h | h
    · exact Or.inl (by omega)
    · have := hhE h; exact Or.inl (by omega)
    · exact Or.inl (by omega)
    · exact Or.inr ⟨by omega, by omega⟩

/-- Arithmetic helper: a four-byte sequence accepted by the decoder encodes
its decoded scalar canonically, and that scalar is a genuine scalar value (the
0xF0/0xF4 acceptance rows exclude overlong forms and values above U+10FFFF). -/
theorem utf8Encode_four {b0 b1 b2 b3 : Nat} (h0 : 0xF0 ≤ b0) (h0' : b0 ≤ 0xF4)
    (hl : 0x80 ≤ b1) (hlE : b0 = 0xF0 → 0x90 ≤ b1)
    (hh : b1 ≤ 0xBF) (hhE : b0 = 0xF4 → b1 ≤ 0x8F)
    (h2 : 0x80 ≤ b2) (h2' : b2 ≤ 0xBF) (h3 : 0x80 ≤ b3) (h3' : b3 ≤ 0xBF) :
    utf8Encode ((b0 - 0xF0) * 0x40000 + (b1 - 0x80) * 0x1000 + (b2 - 0x80) * 0x40 +
        (b3 - 0x80)) = [b0, b1, b2, b3] ∧
      scalarOK ((b0 - 0xF0) * 0x40000 + (b1 - 0x80) * 0x1000 + (b2 - 0x80) * 0x40 +
        (b3 - 0x80)) := by
  have hF0 : b0 = 0xF0 ∨ b0 = 0xF4 ∨ (0xF0 < b0 ∧ b0 < 0xF4) := by omega
  have hr3 : ¬((b0 - 0xF0) * 0x40000 + (b1 - 0x80) * 0x1000 + (b2 - 0x80) * 0x40 +
      (b3 - 0x80) < 0x10000) := by
    rcases hF0 with h | h | h
    · have := hlE h; omega
    · omega
    · omega
  constructor
  · unfold utf8Encode
    rw [if_neg (by omega), if_neg (by omega), if_neg hr3]
    simp only [List.cons.injEq, and_true]
    refine ⟨by omega, by omega, by omega, by omega⟩
  · refine Or.inr ⟨by omega, ?_⟩
    rcases hF0 with h | h | h
    · omega
    · have := hhE h; omega
    · omega

/-- Bounds for the second byte of an accepted multi-byte sequence, expressed
numerically in terms of the leading byte. -/
theorem acc_bounds {b0 b1 : Nat} (hlo : accLo b0 ≤ b1) (hhi : b1 ≤ accHi b0) :
    0x80 ≤ b1 ∧ b1 ≤ 0xBF ∧ (b0 = 0xE0 → 0xA0 ≤ b1) ∧ (b0 = 0xED → b1 ≤ 0x9F) ∧
      (b0 = 0xF0 → 0x90 ≤ b1) ∧ (b0 = 0xF4 → b1 ≤ 0x8F) := by
  unfold accLo at hlo
  unfold accHi at hhi
  refine ⟨?_, ?_, ?_, ?_, ?_, ?_⟩
  · split at hlo <;> [omega; (split at hlo <;> omega)]
  · split at hhi <;> [omega; (split at hhi <;> omega)]
  · intro hx
    rw [if_pos hx] at hlo
    exact hlo
  · intro hx
    rw [if_pos hx] at hhi
    exact hhi
  · intro hx
    rw [if_neg (by omega), if_pos hx] at hlo
    exact hlo
  · intro hx
    rw [if_neg (by omega), if_pos hx] at hhi
    exact hhi

/-- Inversion principle for Go's UTF-8 decoder on nonempty input: either the
input is malformed (replacement scalar, one byte consumed) or the consumed
bytes are exactly the canonical encoding of the decoded genuine scalar. -/
theorem decodeRune_inv {b0 : Nat} {rest : List Nat} {r n : Nat}
    (h : decodeRune (b0 :: rest) = (r, n)) :
    (r = 0xFFFD ∧ n = 1) ∨
    ((b0 :: rest).take n = utf8Encode r ∧ (utf8Encode r).length = n ∧ scalarOK r ∧
      1 ≤ n ∧ n ≤ (b0 :: rest).length) := by
  by_cases hA : b0 < 0x80
  · simp only [decodeRune, if_pos hA] at h
    obtain ⟨rfl, rfl⟩ := Prod.mk.inj h
    right
    refine ⟨by simp [utf8Encode, hA], by simp [utf8Encode, hA], Or.inl (by omega), by omega,
      by simp⟩
  by_cases hB : b0 < 0xC2
  · simp only [decodeRune, if_neg hA, if_pos hB] at h
    obtain ⟨rfl, rfl⟩ := Prod.mk.inj h
    exact Or.inl ⟨rfl, rfl⟩
  by_cases hC : b0 ≤ 0xDF
  · match rest with
    | [] =>
      simp only [decodeRune, if_neg hA, if_neg hB, if_pos hC] at h
      obtain ⟨rfl, rfl⟩ := Prod.mk.inj h
      exact Or.inl ⟨rfl, rfl⟩
    | b1 :: t =>
      by_cases hb1 : 0x80 ≤ b1 ∧ b1 ≤ 0xBF
      · simp only [decodeRune, if_neg hA, if_neg hB, if_pos hC, if_pos hb1] at h
        obtain ⟨rfl, rfl⟩ := Prod.mk.inj h
        obtain ⟨henc, hsc⟩ := utf8Encode_two (by omega) hC hb1.1 hb1.2
        right
        exact ⟨by rw [henc]; rfl, by rw [henc]; rfl, hsc, by omega, by simp⟩
      · simp only [decodeRune, if_neg hA, if_neg hB, if_pos hC, if_neg hb1] at h
        obtain ⟨rfl, rfl⟩ := Prod.mk.inj h
        exact Or.inl ⟨rfl, rfl⟩
  by_cases hD : b0 ≤ 0xEF
  · match rest with
    | [] =>
      simp only [decodeRune, if_neg hA, if_neg hB, if_neg hC, if_pos hD] at h
      obtain ⟨rfl, rfl⟩ := Prod.mk.inj h
      exact Or.inl ⟨rfl, rfl⟩
    | [b1] =>
      simp only [decodeRune, if_neg hA, if_neg hB, if_neg hC, if_pos hD] at h
      obtain ⟨rfl, rfl⟩ := Prod.mk.inj h
      exact Or.inl ⟨rfl, rfl⟩
    | b1 :: b2 :: t =>
      by_cases hb : accLo b0 ≤ b1 ∧ b1 ≤ accHi b0 ∧ 0x80 ≤ b2 ∧ b2 ≤ 0xBF
      · simp only [decodeRune, if_neg hA, if_neg hB, if_neg hC, if_pos hD, if_pos hb] at h
        obtain ⟨rfl, rfl⟩ := Prod.mk.inj h
        obtain ⟨ha1, ha2, ha3, ha4, _, _⟩ := acc_bounds hb.1 hb.2.1
        obtain ⟨henc, hsc⟩ := utf8Encode_three (by omega) hD ha1 ha3 ha2 ha4 hb.2.2.1 hb.2.2.2
        right
        exact ⟨by rw [henc]; rfl, by rw [henc]; rfl, hsc, by omega, by simp⟩
      · simp only [decodeRune, if_neg hA, if_neg hB, if_neg hC, if_pos hD, if_neg hb] at h
        obtain ⟨rfl, rfl⟩ := Prod.mk.inj h
        exact Or.inl ⟨rfl, rfl⟩
  by_cases hE : b0 ≤ 0xF4
  · match rest with
    | [] =>
      simp only [decodeRune, if_neg hA, if_neg hB, if_neg hC, if_neg hD, if_pos hE] at h
      obtain ⟨rfl, rfl⟩ := Prod.mk.inj h
      exact Or.inl ⟨rfl, rfl⟩
    | [b1] =>
      simp only [decodeRune, if_neg hA, if_neg hB, if_neg hC, if_neg hD, if_pos hE] at h
      obtain ⟨rfl, rfl⟩ := Prod.mk.inj h
      exact Or.inl ⟨rfl, rfl⟩
    | [b1, b2] =>
      simp only [decodeRune, if_neg hA, if_neg hB, if_neg hC, if_neg hD, if_pos hE] at h
      obtain ⟨rfl, rfl⟩ := Prod.mk.inj h
      exact Or.inl ⟨rfl, rfl⟩
    | b1 :: b2 :: b3 :: t =>
      by_cases hb : accLo b0 ≤ b1 ∧ b1 ≤ accHi b0 ∧ 0x80 ≤ b2 ∧ b2 ≤ 0xBF ∧ 0x80 ≤ b3 ∧ b3 ≤ 0xBF
      · simp only [decodeRune, if_neg hA, if_neg hB, if_neg hC, if_neg hD, if_pos hE,
          if_pos hb] at h
        obtain ⟨rfl, rfl⟩ := Prod.mk.inj h
        obtain ⟨ha1, ha2, _, _, ha5, ha6⟩ := acc_bounds hb.1 hb.2.1
        obtain ⟨henc, hsc⟩ := utf8Encode_four (by omega) hE ha1 ha5 ha2 ha6 hb.2.2.1
          hb.2.2.2.1 hb.2.2.2.2.1 hb.2.2.2.2.2
        right
        exact ⟨by rw [henc]; rfl, by rw [henc]; rfl, hsc, by omega, by simp⟩
      · simp only [decodeRune, if_neg hA, if_neg hB, if_neg hC, if_neg hD, if_pos hE,
          if_neg hb] at h
        obtain ⟨rfl, rfl⟩ := Prod.mk.inj h
        exact Or.inl ⟨rfl, rfl⟩
  · simp only [decodeRune, if_neg hA, if_neg hB, if_neg hC, if_neg hD, if_neg hE] at h
    obtain ⟨rfl, rfl⟩ := Prod.mk.inj h
    exact Or.inl ⟨rfl, rfl⟩

/-- Size returned by `decodeRune` on nonempty input is between 1 and the
input length. -/
theorem decodeRune_size_bounds (b0 : Nat) (rest : List Nat) :
    1 ≤ (decodeRune (b0 :: rest)).2 ∧ (decodeRune (b0 :: rest)).2 ≤ (b0 :: rest).length := by
  rcases decodeRune_inv (r := (decodeRune (b0 :: rest)).1) (n := (decodeRune (b0 :: rest)).2)
      rfl with ⟨_, h2⟩ | ⟨_, _, _, h4, h5⟩
  · rw [h2]
    simp
  · exact ⟨h4, h5⟩

/-- Decoding after canonical encoding of a genuine scalar value returns that
scalar and consumes exactly its encoding, regardless of any following bytes. -/
theorem decodeRune_encode {r : Nat} (hok : scalarOK r) (t : List Nat) :
    decodeRune (utf8Encode r ++ t) = (r, (utf8Encode r).length) := by
  by_cases h1 : r < 0x80
  · simp only [utf8Encode, if_pos h1, List.cons_append, List.nil_append]
    simp [decodeRune, h1]
  by_cases h2 : r < 0x800
  · simp only [utf8Encode, if_neg h1, if_pos h2, List.cons_append, List.nil_append]
    have e1 : ¬(0xC0 + r / 0x40 < 0x80) := by omega
    have e2 : ¬(0xC0 + r / 0x40 < 0xC2) := by omega
    have e3 : 0xC0 + r / 0x40 ≤ 0xDF := by omega
    have e4 : 0x80 ≤ 0x80 + r % 0x40 ∧ 0x80 + r % 0x40 ≤ 0xBF := by omega
    simp only [decodeRune, if_neg e1, if_neg e2, if_pos e3, if_pos e4, Prod.mk.injEq]
    constructor
    · omega
    · simp
  by_cases h3 : r < 0x10000
  · simp only [utf8Encode, if_neg h1, if_neg h2, if_pos h3, List.cons_append, List.nil_append]
    have e1 : ¬(0xE0 + r / 0x1000 < 0x80) := by omega
    have e2 : ¬(0xE0 + r / 0x1000 < 0xC2) := by omega
    have e3 : ¬(0xE0 + r / 0x1000 ≤ 0xDF) := by omega
    have e4 : 0xE0 + r / 0x1000 ≤ 0xEF := by omega
    have eacc : accLo (0xE0 + r / 0x1000) ≤ 0x80 + r / 0x40 % 0x40 ∧
        0x80 + r / 0x40 % 0x40 ≤ accHi (0xE0 + r / 0x1000) := by
      unfold accLo accHi
      rcases hok with hs | hs
      · constructor
        · split
          · omega
          · split <;> omega
        · split
          · omega
          · split <;> omega
      · constructor
        · split
          · omega
          · split <;> omega
        · split
          · omega
          · split <;> omega
    have econd : accLo (0xE0 + r / 0x1000) ≤ 0x80 + r / 0x40 % 0x40 ∧
        0x80 + r / 0x40 % 0x40 ≤ accHi (0xE0 + r / 0x1000) ∧
        0x80 ≤ 0x80 + r % 0x40 ∧ 0x80 + r % 0x40 ≤ 0xBF :=
      ⟨eacc.1, eacc.2, by omega, by omega⟩
    simp only [decodeRune, if_neg e1, if_neg e2, if_neg e3, if_pos e4, if_pos econd,
      Prod.mk.injEq]
    constructor
    · omega
    · simp
  · have h4 : 0xDFFF < r ∧ r ≤ 0x10FFFF := by
      rcases hok with hs | hs
      · omega
      · exact hs
    simp only [utf8Encode, if_neg h1, if_neg h2, if_neg h3, List.cons_append, List.nil_append]
    have e1 : ¬(0xF0 + r / 0x40000 < 0x80) := by omega
    have e2 : ¬(0xF0 + r / 0x40000 < 0xC2) := by omega
    have e3 : ¬(0xF0 + r / 0x40000 ≤ 0xDF) := by omega
    have e4 : ¬(0xF0 + r / 0x40000 ≤ 0xEF) := by omega
    have e5 : 0xF0 + r / 0x40000 ≤ 0xF4 := by omega
    have eacc : accLo (0xF0 + r / 0x40000) ≤ 0x80 + r / 0x1000 % 0x40 ∧
        0x80 + r / 0x1000 % 0x40 ≤ accHi (0xF0 + r / 0x40000) := by
      unfold accLo accHi
      constructor
      · split
        · omega
        · split <;> omega
      · split
        · omega
        · split <;> omega
    have econd : accLo (0xF0 + r / 0x40000) ≤ 0x80 + r / 0x1000 % 0x40 ∧
        0x80 + r / 0x1000 % 0x40 ≤ accHi (0xF0 + r / 0x40000) ∧
        0x80 ≤ 0x80 + r / 0x40 % 0x40 ∧ 0x80 + r / 0x40 % 0x40 ≤ 0xBF ∧
        0x80 ≤ 0x80 + r % 0x40 ∧ 0x80 + r % 0x40 ≤ 0xBF :=
      ⟨eacc.1, eacc.2, by omega, by omega, by omega, by omega⟩
    simp only [decodeRune, if_neg e1, if_neg e2, if_neg e3, if_neg e4, if_pos e5, if_pos econd,
      Prod.mk.injEq]
    constructor
    · omega
    · simp

/-- Validity of a byte list as UTF-8, phrased exactly as Go detects it: decode
scalar by scalar and fail exactly on a (RuneError, size 1) result.  The literal
three-byte encoding EF BF BD of U+FFFD decodes with size 3 and is therefore
valid. -/
def validUTF8 : List Nat → Bool
  | [] => true
  | b0 :: rest =>
    if (decodeRune (b0 :: rest)).1 = 0xFFFD ∧ (decodeRune (b0 :: rest)).2 = 1 then false
    else validUTF8 ((b0 :: rest).drop (decodeRune (b0 :: rest)).2)
termination_by s => s.length
decreasing_by
  have hb := decodeRune_size_bounds b0 rest
  simp only [List.length_drop, List.length_cons]
  omega

/-- Specification-level UTF-8 validity: the byte list is the concatenation of
the canonical encodings of a sequence of Unicode scalar values. -/
def isUTF8 (s : List Nat) : Prop :=
  ∃ rs : List Nat, (∀ r ∈ rs, scalarOK r) ∧ s = (rs.map utf8Encode).flatten

/-- Encodings of scalar values are nonempty. -/
theorem utf8Encode_ne_nil (r : Nat) : utf8Encode r ≠ [] := by
  unfold utf8Encode
  repeat' split
  all_goals simp

/-- Go's byte-level validity test agrees with the specification-level notion
of UTF-8 validity. -/
theorem validUTF8_iff (s : List Nat) : validUTF8 s = true ↔ isUTF8 s := by
  constructor
  · have H : ∀ (k : Nat) (s : List Nat), s.length ≤ k → validUTF8 s = true → isUTF8 s := by
      intro k
      induction k with
      | zero =>
        intro s hlen _
        match s with
        | [] => exact ⟨[], by simp, by simp⟩
        | b :: t => simp at hlen
      | succ k ih =>
        intro s hlen hv
        match s with
        | [] => exact ⟨[], by simp, by simp⟩
        | b0 :: rest =>
          rcases hd : decodeRune (b0 :: rest) with ⟨r, n⟩
          rw [validUTF8, hd] at hv
          by_cases hbad : r = 0xFFFD ∧ n = 1
          · rw [if_pos hbad] at hv
            exact absurd hv (by simp)
          · rw [if_neg hbad] at hv
            obtain ⟨htake, hlenEnc, hok, hn1, hn2⟩ :=
              (decodeRune_inv hd).resolve_left hbad
            obtain ⟨rs, hrs, hflat⟩ := ih ((b0 :: rest).drop n)
              (by simp only [List.length_drop, List.length_cons] at *; omega) hv
            refine ⟨r :: rs, ?_, ?_⟩
            · intro x hx
              rcases List.mem_cons.mp hx with rfl | hx
              · exact hok
              · exact hrs x hx
            · have := List.take_append_drop n (b0 :: rest)
              simp only [List.map_cons, List.flatten_cons]
              rw [← hflat, ← htake]
              exact this.symm
    exact fun hv => H s.length s le_rfl hv
  · rintro ⟨rs, hrs, rfl⟩
    induction rs with
    | nil => simp [validUTF8]
    | cons r rs ih =>
      have hok : scalarOK r := hrs r (by simp)
      have hd := decodeRune_encode hok ((rs.map utf8Encode).flatten)
      have hne := utf8Encode_ne_nil r
      simp only [List.map_cons, List.flatten_cons]
      match he : utf8Encode r with
      | [] => exact absurd he hne
      | e0 :: et =>
        rw [he] at hd
        have hcons : e0 :: (et ++ (rs.map utf8Encode).flatten) =
            (e0 :: et) ++ (rs.map utf8Encode).flatten := rfl
        rw [List.cons_append, validUTF8, ← List.cons_append, hd]
        have hlen1 : ¬(r = 0xFFFD ∧ (e0 :: et).length = 1) := by
          rintro ⟨rfl, hl⟩
          rw [show utf8Encode 0xFFFD = [0xEF, 0xBF, 0xBD] by decide] at he
          rw [← he] at hl
          simp at hl
        rw [if_neg hlen1]
        have hdrop : ((e0 :: et) ++ (rs.map utf8Encode).flatten).drop (e0 :: et).length =
            (rs.map utf8Encode).flatten := List.drop_left _ _
        rw [hdrop]
        exact ih (fun x hx => hrs x (by simp [hx]))

/-- High surrogate of the UTF-16 surrogate pair of a supplementary scalar,
as computed by Go `utf16.EncodeRune`. -/
def utf16Hi (r : Nat) : Nat := 0xD800 + (r - 0x10000) / 0x400

/-- Low surrogate of the UTF-16 surrogate pair of a supplementary scalar,
as computed by Go `utf16.EncodeRune`. -/
def utf16Lo (r : Nat) : Nat := 0xDC00 + (r - 0x10000) % 0x400

/-- UTF-16 code units of one scalar value: one unit for the Basic Multilingual
Plane, a surrogate pair above it. -/
def runeUnits (r : Nat) : List Nat :=
  if r < 0x10000 then [r] else [utf16Hi r, utf16Lo r]

/-- UTF-16 code units of a byte string, scalar by scalar, stopping at the
first malformed sequence (reference function used to state properties of
`appendUTF16`). -/
def strUnits : List Nat → List Nat
  | [] => []
  | b0 :: rest =>
    if (decodeRune (b0 :: rest)).1 = 0xFFFD ∧ (decodeRune (b0 :: rest)).2 = 1 then []
    else runeUnits (decodeRune (b0 :: rest)).1 ++
      strUnits ((b0 :: rest).drop (decodeRune (b0 :: rest)).2)
termination_by s => s.length
decreasing_by
  have hb := decodeRune_size_bounds b0 rest
  simp only [List.length_drop, List.length_cons]
  omega

/-- Loop of `appendUTF16` (src/unnamed/part_001, lines 49-79): decode a scalar
at a time; fail on a size-1 RuneError result; append one unit below U+10000,
otherwise the surrogate pair from `utf16.EncodeRune`. -/
def appendUTF16Loop (buf : List Nat) : List Nat → List Nat × Option Err
  | [] => (buf, none)
  | b0 :: rest =>
    if (decodeRune (b0 :: rest)).1 = 0xFFFD ∧ (decodeRune (b0 :: rest)).2 = 1 then
      (buf, some .invalidUTF8)
    else if (decodeRune (b0 :: rest)).1 < 0x10000 then
      appendUTF16Loop (buf ++ [(decodeRune (b0 :: rest)).1])
        ((b0 :: rest).drop (decodeRune (b0 :: rest)).2)
    else
      appendUTF16Loop (buf ++ [utf16Hi (decodeRune (b0 :: rest)).1,
        utf16Lo (decodeRune (b0 :: rest)).1])
        ((b0 :: rest).drop (decodeRune (b0 :: rest)).2)
termination_by s => s.length
decreasing_by
  all_goals have hb := decodeRune_size_bounds b0 rest
  all_goals simp only [List.length_drop, List.length_cons]
  all_goals omega

/-- Model of `appendUTF16` (src/unnamed/part_001): appends the UTF-16 code
units of `s` to `buf` and returns the extended buffer, the count of units
appended (`len(buf) - start` in the source, 0 on error) and the error, if any.
On error the source returns the buffer as extended so far. -/
def appendUTF16 (buf : List Nat) (s : List Nat) : List Nat × Nat × Option Err :=
  match appendUTF16Loop buf s with
  | (buf2, none) => (buf2, buf2.length - buf.length, none)
  | (buf2, some e) => (buf2, 0, some e)

/-- On valid UTF-8 input the lowering loop appends exactly the UTF-16 units of
the input and reports no error. -/
theorem appendUTF16Loop_valid :
    ∀ (k : Nat) (s : List Nat), s.length ≤ k → validUTF8 s = true →
      ∀ buf, appendUTF16Loop buf s = (buf ++ strUnits s, none) := by
  intro k
  induction k with
  | zero =>
    intro s hlen _ buf
    match s with
    | [] => simp [appendUTF16Loop, strUnits]
    | b :: t => simp at hlen
  | succ k ih =>
    intro s hlen hv buf
    match s with
    | [] => simp [appendUTF16Loop, strUnits]
    | b0 :: rest =>
      rcases hd : decodeRune (b0 :: rest) with ⟨r, n⟩
      rw [validUTF8, hd] at hv
      by_cases hbad : r = 0xFFFD ∧ n = 1
      · rw [if_pos hbad] at hv
        exact absurd hv (by simp)
      · rw [if_neg hbad] at hv
        have hb := decodeRune_size_bounds b0 rest
        rw [hd] at hb
        have hlen2 : ((b0 :: rest).drop n).length ≤ k := by
          simp only [List.length_drop, List.length_cons] at *
          omega
        rw [appendUTF16Loop, hd, strUnits, hd, if_neg hbad, if_neg hbad]
        by_cases hbmp : r < 0x10000
        · rw [if_pos hbmp, ih _ hlen2 hv]
          simp [runeUnits, hbmp]
        · rw [if_neg hbmp, ih _ hlen2 hv]
          simp [runeUnits, hbmp]

/-- On malformed input the lowering loop reports ErrInvalidUTF8. -/
theorem appendUTF16Loop_invalid :
    ∀ (k : Nat) (s : List Nat), s.length ≤ k → validUTF8 s = false →
      ∀ buf, (appendUTF16Loop buf s).2 = some .invalidUTF8 := by
  intro k
  induction k with
  | zero =>
    intro s hlen hv buf
    match s with
    | [] => simp [validUTF8] at hv
    | b :: t => simp at hlen
  | succ k ih =>
    intro s hlen hv buf
    match s with
    | [] => simp [validUTF8] at hv
    | b0 :: rest =>
      rcases hd : decodeRune (b0 :: rest) with ⟨r, n⟩
      rw [validUTF8, hd] at hv
      by_cases hbad : r = 0xFFFD ∧ n = 1
      · rw [appendUTF16Loop, hd, if_pos hbad]
      · rw [if_neg hbad] at hv
        have hb := decodeRune_size_bounds b0 rest
        rw [hd] at hb
        have hlen2 : ((b0 :: rest).drop n).length ≤ k := by
          simp only [List.length_drop, List.length_cons] at *
          omega
        rw [appendUTF16Loop, hd, if_neg hbad]
        by_cases hbmp : r < 0x10000
        · rw [if_pos hbmp]
          exact ih _ hlen2 hv _
        · rw [if_neg hbmp]
          exact ih _ hlen2 hv _

/-- Length of `dropWhile` never exceeds the length of the input. -/
theorem dropWhile_length_le {α : Type} (p : α → Bool) (l : List α) :
    (l.dropWhile p).length ≤ l.length := by
  induction l with
  | nil => simp
  | cons a t ih =>
    rw [List.dropWhile_cons]
    split
    · simp only [List.length_cons]
      omega
    · simp

/-- Dropping a satisfied head strictly shrinks the list. -/
theorem dropWhile_cons_length_lt {α : Type} (p : α → Bool) (c : α) (t : List α)
    (h : p c = true) : ((c :: t).dropWhile p).length < (c :: t).length := by
  rw [List.dropWhile_cons, if_pos h]
  have := dropWhile_length_le p t
  simp only [List.length_cons]
  omega

/-- Dropping the bytes consumed by the decoder strictly shrinks a nonempty
list. -/
theorem drop_decode_length_lt (s : List Nat) (hne : s ≠ []) :
    (s.drop (decodeRune s).2).length < s.length := by
  match s with
  | b :: t =>
    have hb := decodeRune_size_bounds b t
    simp only [List.length_drop, List.length_cons]
    omega

/-- Hexadecimal digit table of string.go (`hex = "0123456789abcdef"`), as
byte values with lowercase letters. -/
def hexDigit (n : Nat) : Nat := if n < 10 then 48 + n else 87 + n

/-- Safe-ASCII test of the fast path of appendString (string.go line 50):
an ASCII byte at least 0x20 that is neither the quote nor the backslash. -/
def isSafeASCII (c : Nat) : Bool :=
  decide (c < 0x80) && decide (0x20 ≤ c) && decide (c ≠ 0x22) && decide (c ≠ 0x5C)

/-- Safe-ASCII bytes, numerically. -/
theorem isSafeASCII_iff {c : Nat} :
    isSafeASCII c = true ↔ c < 0x80 ∧ 0x20 ≤ c ∧ c ≠ 0x22 ∧ c ≠ 0x5C := by
  simp [isSafeASCII, and_assoc]

/-- ASCII slow-path escape of appendString (string.go lines 67-90): the quote
and the backslash escape with a backslash, the five short escapes, and \u00XX
with lowercase hex digits for the remaining control bytes. -/
def escControl (c : Nat) : List Nat :=
  if c = 0x22 ∨ c = 0x5C then [0x5C, c]
  else if c = 8 then [0x5C, 0x62]
  else if c = 9 then [0x5C, 0x74]
  else if c = 10 then [0x5C, 0x6E]
  else if c = 12 then [0x5C, 0x66]
  else if c = 13 then [0x5C, 0x72]
  else [0x5C, 0x75, 0x30, 0x30, hexDigit (c / 16), hexDigit (c % 16)]

/-- Loop of appendString (string.go lines 46-111) on the remaining input: the
fast path copies the longest run of safe ASCII bytes at once; the ASCII slow
path appends an escape; the non-ASCII path validates one scalar and copies its
bytes verbatim, allowing the literal EF BF BD encoding of U+FFFD, rejecting
every other RuneError result, and rejecting surrogate scalars.  An error
returns the buffer as built so far; the wrapper discards it. -/
def appendStringLoop (dst : List Nat) : List Nat → List Nat × Option Err
  | [] => (dst, none)
  | c :: t =>
    if isSafeASCII c then
      appendStringLoop (dst ++ (c :: t).takeWhile isSafeASCII) ((c :: t).dropWhile isSafeASCII)
    else if c < 0x80 then
      appendStringLoop (dst ++ escControl c) t
    else
      if (decodeRune (c :: t)).1 = 0xFFFD ∧
          ¬((decodeRune (c :: t)).2 = 3 ∧ (c :: t).take 3 = [0xEF, 0xBF, 0xBD]) then
        (dst, some .invalidUTF8)
      else if 0xD800 ≤ (decodeRune (c :: t)).1 ∧ (decodeRune (c :: t)).1 ≤ 0xDFFF then
        (dst, some .invalidUTF8)
      else
        appendStringLoop (dst ++ (c :: t).take (decodeRune (c :: t)).2)
          ((c :: t).drop (decodeRune (c :: t)).2)
termination_by s => s.length
decreasing_by
  · exact dropWhile_cons_length_lt _ _ _ (by assumption)
  · simp only [List.length_cons]
    omega
  · exact drop_decode_length_lt _ (by simp)

/-- Model of appendString (string.go lines 38-115): wraps the escaped content
in double quotes; on error restores the destination to its entry length
(`dst[:dstLen]` in the source, which is exactly the original buffer since
append never modifies bytes below the entry length). -/
def appendString (dst : List Nat) (s : List Nat) : List Nat × Option Err :=
  match appendStringLoop (dst ++ [0x22]) s with
  | (d, none) => (d ++ [0x22], none)
  | (_, some e) => (dst, some e)

/-- Byte-escaping rules as the specification states them (§4.3, claim C3),
scalar by scalar: ASCII in [0x20, 0x7E] other than the quote and the backslash
verbatim; the quote and the backslash with a backslash; the five short
escapes; \u00XX with lowercase hex for every other byte below 0x20; every
valid non-ASCII scalar as its original UTF-8 bytes.  The specification states
no rule for the byte 0x7F, which the code copies verbatim; this function
follows the code there. -/
def escapeSpec : List Nat → List Nat
  | [] => []
  | c :: t =>
    if c < 0x80 then
      (if 0x20 ≤ c ∧ c ≤ 0x7E ∧ c ≠ 0x22 ∧ c ≠ 0x5C then [c]
       else if c = 0x22 ∨ c = 0x5C then [0x5C, c]
       else if c = 8 then [0x5C, 0x62]
       else if c = 9 then [0x5C, 0x74]
       else if c = 10 then [0x5C, 0x6E]
       else if c = 12 then [0x5C, 0x66]
       else if c = 13 then [0x5C, 0x72]
       else if c < 0x20 then [0x5C, 0x75, 0x30, 0x30, hexDigit (c / 16), hexDigit (c % 16)]
       else [c]) ++ escapeSpec t
    else if (decodeRune (c :: t)).1 = 0xFFFD ∧ (decodeRune (c :: t)).2 = 1 then []
    else (c :: t).take (decodeRune (c :: t)).2 ++
      escapeSpec ((c :: t).drop (decodeRune (c :: t)).2)
termination_by s => s.length
decreasing_by
  · simp only [List.length_cons]
    omega
  · exact drop_decode_length_lt _ (by simp)

/-- Escaping a safe ASCII byte copies it verbatim. -/
theorem escapeSpec_safe {c : Nat} (t : List Nat) (hs : isSafeASCII c = true) :
    escapeSpec (c :: t) = c :: escapeSpec t := by
  obtain ⟨h1, h2, h3, h4⟩ := isSafeASCII_iff.mp hs
  rw [escapeSpec, if_pos h1]
  by_cases h7 : c ≤ 0x7E
  · rw [if_pos ⟨h2, h7, h3, h4⟩]
    rfl
  · have hq : ¬ (c = 0x22 ∨ c = 0x5C) := by
      rintro (rfl | rfl) <;> omega
    have hnl : ¬ c = 10 := by omega
    rw [if_neg (by omega), if_neg hq, if_neg (by omega), if_neg (by omega),
      if_neg hnl, if_neg (by omega), if_neg (by omega), if_neg (by omega)]
    rfl

/-- Escaping an unsafe ASCII byte appends exactly the slow-path escape. -/
theorem escapeSpec_slow {c : Nat} (t : List Nat) (hlt : c < 0x80)
    (hns : isSafeASCII c = false) :
    escapeSpec (c :: t) = escControl c ++ escapeSpec t := by
  have hc : c = 0x22 ∨ c = 0x5C ∨ c < 0x20 := by
    rw [← Bool.not_eq_true, isSafeASCII_iff] at hns
    by_cases hq : c = 0x22
    · exact Or.inl hq
    by_cases hs : c = 0x5C
    · exact Or.inr (Or.inl hs)
    refine Or.inr (Or.inr ?_)
    by_contra hlt2
    exact hns ⟨hlt, by omega, hq, hs⟩
  rw [escapeSpec, escControl, if_pos hlt, if_neg (by omega)]
  congr 1
  by_cases hq : c = 0x22 ∨ c = 0x5C
  · rw [if_pos hq, if_pos hq]
  rw [if_neg hq, if_neg hq]
  by_cases h8 : c = 8
  · rw [if_pos h8, if_pos h8]
  rw [if_neg h8, if_neg h8]
  by_cases h9 : c = 9
  · rw [if_pos h9, if_pos h9]
  rw [if_neg h9, if_neg h9]
  by_cases h10 : c = 10
  · rw [if_pos h10, if_pos h10]
  rw [if_neg h10, if_neg h10]
  by_cases h12 : c = 12
  · rw [if_pos h12, if_pos h12]
  rw [if_neg h12, if_neg h12]
  by_cases h13 : c = 13
  · rw [if_pos h13, if_pos h13]
  rw [if_neg h13, if_neg h13]
  rw [if_pos (by omega)]

/-- Prefixing an ASCII byte does not change UTF-8 validity of the rest. -/
theorem validUTF8_cons_ascii {c : Nat} (t : List Nat) (h : c < 0x80) :
    validUTF8 (c :: t) = validUTF8 t := by
  have hd : decodeRune (c :: t) = (c, 1) := by simp [decodeRune, h]
  rw [validUTF8, hd]
  rw [if_neg (by omega)]
  simp

/-- Prefixing a run of safe ASCII bytes does not change UTF-8 validity. -/
theorem validUTF8_append_run :
    ∀ run : List Nat, (∀ b ∈ run, isSafeASCII b = true) →
      ∀ x, validUTF8 (run ++ x) = validUTF8 x := by
  intro run hrun x
  induction run with
  | nil => simp
  | cons b rb ih =>
    have hb := isSafeASCII_iff.mp (hrun b (by simp))
    rw [List.cons_append, validUTF8_cons_ascii _ hb.1]
    exact ih (fun y hy => hrun y (by simp [hy]))

/-- Escaping commutes with splitting off a run of safe ASCII bytes. -/
theorem escapeSpec_append_run :
    ∀ run : List Nat, (∀ b ∈ run, isSafeASCII b = true) →
      ∀ x, escapeSpec (run ++ x) = run ++ escapeSpec x := by
  intro run hrun x
  induction run with
  | nil => simp
  | cons b rb ih =>
    rw [List.cons_append, escapeSpec_safe _ (hrun b (by simp)),
      ih (fun y hy => hrun y (by simp [hy]))]
    rfl

/-- Characterization of the appendString loop: on valid UTF-8 it appends
exactly the specified escape of the input and no error; on malformed input it
reports ErrInvalidUTF8. -/
theorem appendStringLoop_chr :
    ∀ (k : Nat) (s : List Nat), s.length ≤ k →
      (validUTF8 s = true → ∀ dst, appendStringLoop dst s = (dst ++ escapeSpec s, none)) ∧
      (validUTF8 s = false → ∀ dst, (appendStringLoop dst s).2 = some .invalidUTF8) := by
  intro k
  induction k with
  | zero =>
    intro s hlen
    match s with
    | [] =>
      constructor
      · intro _ dst
        simp [appendStringLoop, escapeSpec]
      · intro hv
        simp [validUTF8] at hv
    | b :: t => simp at hlen
  | succ k ih =>
    intro s hlen
    match s with
    | [] =>
      constructor
      · intro _ dst
        simp [appendStringLoop, escapeSpec]
      · intro hv
        simp [validUTF8] at hv
    | c :: t =>
      by_cases hsafe : isSafeASCII c = true
      · have hrun : ∀ b ∈ (c :: t).takeWhile isSafeASCII, isSafeASCII b = true :=
          fun b hb => List.mem_takeWhile_imp hb
        have hsplitEq := List.takeWhile_append_dropWhile isSafeASCII (c :: t)
        have hvalEq : validUTF8 (c :: t) = validUTF8 ((c :: t).dropWhile isSafeASCII) := by
          conv_lhs => rw [← hsplitEq]
          exact validUTF8_append_run _ hrun _
        have hescEq : escapeSpec (c :: t) =
            (c :: t).takeWhile isSafeASCII ++ escapeSpec ((c :: t).dropWhile isSafeASCII) := by
          conv_lhs => rw [← hsplitEq]
          exact escapeSpec_append_run _ hrun _
        have hlen2 : ((c :: t).dropWhile isSafeASCII).length ≤ k := by
          rw [List.dropWhile_cons, if_pos hsafe]
          have := dropWhile_length_le isSafeASCII t
          simp only [List.length_cons] at hlen
          omega
        constructor
        · intro hv dst
          rw [appendStringLoop, if_pos hsafe,
            (ih _ hlen2).1 (by rw [← hvalEq]; exact hv) _, hescEq, List.append_assoc]
        · intro hv dst
          rw [appendStringLoop, if_pos hsafe]
          exact (ih _ hlen2).2 (by rw [← hvalEq]; exact hv) _
      · by_cases hascii : c < 0x80
        · have hvalEq := validUTF8_cons_ascii t hascii
          have hescEq := escapeSpec_slow t hascii (by simpa using hsafe)
          have hlen2 : t.length ≤ k := by
            simp only [List.length_cons] at hlen
            omega
          constructor
          · intro hv dst
            rw [appendStringLoop, if_neg hsafe, if_pos hascii,
              (ih _ hlen2).1 (by rw [← hvalEq]; exact hv) _, hescEq, List.append_assoc]
          · intro hv dst
            rw [appendStringLoop, if_neg hsafe, if_pos hascii]
            exact (ih _ hlen2).2 (by rw [← hvalEq]; exact hv) _
        · rcases hd : decodeRune (c :: t) with ⟨r, n⟩
          by_cases hbad : r = 0xFFFD ∧ n = 1
          · have hloop : ∀ dst, appendStringLoop dst (c :: t) = (dst, some .invalidUTF8) := by
              intro dst
              rw [appendStringLoop, if_neg hsafe, if_neg hascii, hd]
              rw [if_pos ⟨hbad.1, by rw [hbad.2]; rintro ⟨h3, _⟩; omega⟩]
            constructor
            · intro hv dst
              rw [validUTF8, hd, if_pos hbad] at hv
              exact absurd hv (by simp)
            · intro _ dst
              rw [hloop dst]
          · obtain ⟨htake, hlenEnc, hok, hn1, hn2⟩ := (decodeRune_inv hd).resolve_left hbad
            have hcond1 : ¬(r = 0xFFFD ∧ ¬(n = 3 ∧ (c :: t).take 3 = [0xEF, 0xBF, 0xBD])) := by
              rintro ⟨rfl, hno⟩
              have h3 : n = 3 := by
                rw [← hlenEnc, show utf8Encode 0xFFFD = [0xEF, 0xBF, 0xBD] by decide]
                rfl
              apply hno
              refine ⟨h3, ?_⟩
              rw [← h3, htake, show utf8Encode 0xFFFD = [0xEF, 0xBF, 0xBD] by decide]
            have hcond2 : ¬(0xD800 ≤ r ∧ r ≤ 0xDFFF) := by
              rcases hok with hs | hs
              · omega
              · omega
            have hlen2 : ((c :: t).drop n).length ≤ k := by
              simp only [List.length_drop, List.length_cons] at *
              omega
            have hvstep : validUTF8 (c :: t) = validUTF8 ((c :: t).drop n) := by
              rw [validUTF8, hd, if_neg hbad]
            have hestep : escapeSpec (c :: t) =
                (c :: t).take n ++ escapeSpec ((c :: t).drop n) := by
              rw [escapeSpec, if_neg hascii, hd, if_neg hbad]
            constructor
            · intro hv dst
              rw [appendStringLoop, if_neg hsafe, if_neg hascii, hd, if_neg hcond1,
                if_neg hcond2, (ih _ hlen2).1 (by rw [← hvstep]; exact hv) _, hestep,
                List.append_assoc]
            · intro hv dst
              rw [appendStringLoop, if_neg hsafe, if_neg hascii, hd, if_neg hcond1,
                if_neg hcond2]
              exact (ih _ hlen2).2 (by rw [← hvstep]; exact hv) _

/-- On valid UTF-8, appendString produces the quoted escape and no error. -/
theorem appendString_valid {s : List Nat} (hv : validUTF8 s = true) (dst : List Nat) :
    appendString dst s = (dst ++ [0x22] ++ escapeSpec s ++ [0x22], none) := by
  unfold appendString
  rw [(appendStringLoop_chr s.length s le_rfl).1 hv (dst ++ [0x22])]

/-- On malformed UTF-8, appendString fails with ErrInvalidUTF8 and returns
the destination exactly as received. -/
theorem appendString_invalid {s : List Nat} (hv : validUTF8 s = false) (dst : List Nat) :
    appendString dst s = (dst, some .invalidUTF8) := by
  unfold appendString
  have h2 := (appendStringLoop_chr s.length s le_rfl).2 hv (dst ++ [0x22])
  rcases hL : appendStringLoop (dst ++ [0x22]) s with ⟨d, e⟩
  rw [hL] at h2
  simp only at h2
  rw [h2]

/-- Decimal digits of a natural number, most significant first, as ASCII
bytes. -/
def natToDec (n : Nat) : List Nat :=
  if n < 10 then [48 + n] else natToDec (n / 10) ++ [48 + n % 10]
termination_by n
decreasing_by
  omega

/-- Decimal rendering of an integer as ASCII bytes, with a leading minus sign
for negative values. -/
def intToDec (n : Int) : List Nat :=
  if n < 0 then 0x2D :: natToDec n.natAbs else natToDec n.natAbs

/-- Modelled from the spec: `isNumberOOR` is not under src/ (only its callers
in jcs.go are).  §4.1 of the spec: an integer is out of range exactly when its
magnitude exceeds 2^53 - 1, the largest integer exactly representable as an
IEEE-754 double. -/
def isNumberOOR (n : Int) : Bool := decide (2 ^ 53 - 1 < n.natAbs)

/-- Go integer types accepted by the type switch of Append. -/
inductive IntTy where
  | i
  | i8
  | i16
  | i32
  | i64
  | u
  | u8
  | u16
  | u32
  | u64
deriving DecidableEq

/-- Integer types wider than 32 bits, the ones jcs.go bounds-checks with
isNumberOOR before converting (int, int64, uint, uint64 on a 64-bit
platform). -/
def IntTy.wide : IntTy → Bool
  | .i | .i64 | .u | .u64 => true
  | _ => false

/-- Value range of each Go integer type. -/
def IntTy.inRange : IntTy → Int → Bool
  | .i, n => decide (-(2 ^ 63) ≤ n ∧ n < 2 ^ 63)
  | .i8, n => decide (-(2 ^ 7) ≤ n ∧ n < 2 ^ 7)
  | .i16, n => decide (-(2 ^ 15) ≤ n ∧ n < 2 ^ 15)
  | .i32, n => decide (-(2 ^ 31) ≤ n ∧ n < 2 ^ 31)
  | .i64, n => decide (-(2 ^ 63) ≤ n ∧ n < 2 ^ 63)
  | .u, n => decide (0 ≤ n ∧ n < 2 ^ 64)
  | .u8, n => decide (0 ≤ n ∧ n < 2 ^ 8)
  | .u16, n => decide (0 ≤ n ∧ n < 2 ^ 16)
  | .u32, n => decide (0 ≤ n ∧ n < 2 ^ 32)
  | .u64, n => decide (0 ≤ n ∧ n < 2 ^ 64)

/-- Modelled from the spec: `appendNumber` is not under src/ (only its caller
in jcs.go is).  §4.2 of the spec: an integral double whose decimal exponent e
satisfies -6 ≤ e < 21 formats as its exact decimal digits with no point and no
exponent, and the sign is dropped for zero.  Every integer reaching the
formatter in this model has magnitude at most 2^53 - 1 < 10^21, so this exact
decimal rendering is the contracted output. -/
def appendNumberInt (dst : List Nat) (n : Int) : List Nat × Option Err :=
  (dst ++ intToDec n, none)

/-- Integer arms of Append (jcs.go lines 90-133): types wider than 32 bits are
bounds-checked with isNumberOOR before conversion to float64, returning the
buffer unchanged on failure; narrower types convert directly.  Conversion of
an in-range integer to a double is exact, so the model feeds the integer
itself to the number formatter. -/
def appendIntVal (dst : List Nat) (t : IntTy) (n : Int) : List Nat × Option Err :=
  if t.wide then
    if isNumberOOR n then (dst, some .numberOOR) else appendNumberInt dst n
  else appendNumberInt dst n

/-- Closed value universe of the encoder's type switch (jcs.go lines 68-191),
restricted to the shapes the claims need: null, booleans, strings as UTF-8
bytes, the integer family tagged with its Go type, []uint8 (`vbytes`), general
slices, string-keyed maps as association lists, and a stand-in for every
unsupported runtime shape.  Floating-point and time.Time values are outside
this model. -/
inductive Value where
  | vnull
  | vbool (b : Bool)
  | vstr (s : List Nat)
  | vint (t : IntTy) (n : Int)
  | vbytes (bs : List Nat)
  | varr (xs : List Value)
  | vobj (entries : List (List Nat × Value))
  | vunsupported

/-- Bytes of the literal `null`. -/
def nullBytes : List Nat := [0x6E, 0x75, 0x6C, 0x6C]

/-- Bytes of the literal `true`. -/
def trueBytes : List Nat := [0x74, 0x72, 0x75, 0x65]

/-- Bytes of the literal `false`. -/
def falseBytes : List Nat := [0x66, 0x61, 0x6C, 0x73, 0x65]

/-- Element loop of the sequence serializer specialized to []uint8 elements,
each dispatched as a Go uint8 (jcs.go lines 119-120, 153-154). -/
def appendSliceU8Elems (d : List Nat) (bs : List Nat) (first : Bool) :
    List Nat × Option Err :=
  match bs with
  | [] => (d, none)
  | b :: rest =>
    match appendIntVal (if first then d else d ++ [0x2C]) .u8 (b : Int) with
    | (d2, none) => appendSliceU8Elems d2 rest false
    | (_, some e) => (d, some e)

/-- Modelled from the spec: the sequence serializer (§4.6, `appendSlice` is
not under src/) at the []uint8 arm of the type switch (jcs.go line 153):
`[`, the elements' canonical encodings in order separated by `,`, then `]`,
with rollback of the destination on a failing element. -/
def appendSliceU8 (dst : List Nat) (bs : List Nat) : List Nat × Option Err :=
  match appendSliceU8Elems (dst ++ [0x5B]) bs true with
  | (d, none) => (d ++ [0x5D], none)
  | (_, some e) => (dst, some e)

/-- Key record of the object serializer (`kv` in the source): the raw key
bytes together with its UTF-16 code-unit span.  The source stores the span as
start/length indices into a scratch buffer shared by all keys of one object;
the span's content equals the units of the key alone, which this model stores
directly. -/
structure KV where
  raw : List Nat
  units : List Nat
deriving DecidableEq

/-- Comparator of the object key sort (appendObject, sort closure): the first
differing UTF-16 unit decides numerically; on a shared prefix the shorter key
comes first. -/
def cmpUnits : List Nat → List Nat → Bool
  | _, [] => false
  | [], _ :: _ => true
  | a :: as, b :: bs => if a = b then cmpUnits as bs else decide (a < b)

/-- Non-strict companion of the key comparator: `x` need not come after `y`. -/
def kvLE (x y : KV) : Prop := cmpUnits y.units x.units = false

instance : DecidableRel kvLE := fun x y => by unfold kvLE; infer_instance

/-- Key collection loop of appendObject (lines 19-36 of the serializer):
lower each key to UTF-16 in iteration order, failing on the first invalid
key; record each key with its unit span. -/
def buildKVs : List (List Nat × Value) → Except Err (List KV)
  | [] => .ok []
  | (k, _) :: rest =>
    match appendUTF16 [] k with
    | (us, _, none) =>
      match buildKVs rest with
      | .ok kvs => .ok (⟨k, us⟩ :: kvs)
      | .error e => .error e
    | (_, _, some e) => .error e

/-- Key sort of appendObject: `sort.Slice` with the strict comparator.  On
the distinct unit sequences of a map's distinct valid keys the comparator is
a strict total order, so the sorted permutation is unique and any correct
sort — the model uses insertion sort on the non-strict companion — produces
the permutation Go's unstable sort produces. -/
def sortKVs (kvs : List KV) : List KV := List.insertionSort kvLE kvs

/-- Go map indexing `obj[k]` on the association-list model: the value paired
with the key, if present. -/
def lookupVal : List (List Nat × Value) → List Nat → Option Value
  | [], _ => none
  | (k, v) :: rest, key => if k = key then some v else lookupVal rest key

/-- A value found by lookup is structurally smaller than the entry list. -/
theorem lookupVal_sizeOf {entries : List (List Nat × Value)} {key : List Nat} {v : Value}
    (h : lookupVal entries key = some v) : sizeOf v < sizeOf entries := by
  induction entries with
  | nil => simp [lookupVal] at h
  | cons e rest ih =>
    match e with
    | (k, w) =>
      rw [lookupVal] at h
      split at h
      · obtain rfl := Option.some.inj h
        simp only [List.cons.sizeOf_spec, Prod.mk.sizeOf_spec]
        omega
      · have := ih h
        simp only [List.cons.sizeOf_spec, Prod.mk.sizeOf_spec]
        omega

mutual

/-- Model of Append (jcs.go lines 68-192) on the value universe: null and the
booleans print literally; strings go to appendString; the integer family goes
through the bounds-checked integer arms; []uint8 and the general slices go to
the sequence serializer; maps go to appendObject; every other shape fails with
ErrUnsupportedType and leaves the buffer unchanged. -/
def Append (dst : List Nat) : Value → List Nat × Option Err
  | .vnull => (dst ++ nullBytes, none)
  | .vbool true => (dst ++ trueBytes, none)
  | .vbool false => (dst ++ falseBytes, none)
  | .vstr s => appendString dst s
  | .vint t n => appendIntVal dst t n
  | .vbytes bs => appendSliceU8 dst bs
  | .varr xs => appendSlice dst xs
  | .vobj entries => appendObject dst entries
  | .vunsupported => (dst, some .unsupportedType)
termination_by v => (sizeOf v, 0, 0)

/-- Modelled from the spec: the sequence serializer (§4.6), absent from src/:
`[`, each element's canonical encoding in original order separated by `,`,
then `]`; the first failing element aborts with rollback of the destination
to its entry length. -/
def appendSlice (dst : List Nat) (xs : List Value) : List Nat × Option Err :=
  match appendSliceElems (dst ++ [0x5B]) xs true with
  | (d, none) => (d ++ [0x5D], none)
  | (_, some e) => (dst, some e)
termination_by (sizeOf xs, 1, 0)

/-- Element loop of the sequence serializer. -/
def appendSliceElems (d : List Nat) (xs : List Value) (first : Bool) :
    List Nat × Option Err :=
  match xs with
  | [] => (d, none)
  | x :: rest =>
    match Append (if first then d else d ++ [0x2C]) x with
    | (d2, none) => appendSliceElems d2 rest false
    | (_, some e) => (d, some e)
termination_by (sizeOf xs, 0, 0)

/-- Model of appendObject (src/unnamed/part_000): append `{`; an empty map
closes immediately with `}`; otherwise lower every key to UTF-16 (the first
failure rolls the destination back), sort the keys with the UTF-16 comparator,
then emit each entry as escaped key, `:`, and the value found by map lookup,
comma-separated, and close with `}`; any entry failure rolls the destination
back to its entry length. -/
def appendObject (dst : List Nat) (entries : List (List Nat × Value)) :
    List Nat × Option Err :=
  if entries.isEmpty then (dst ++ [0x7B, 0x7D], none)
  else
    match buildKVs entries with
    | .error e => (dst, some e)
    | .ok kvs =>
      match appendObjectEntries entries (dst ++ [0x7B]) (sortKVs kvs) true with
      | (d, none) => (d ++ [0x7D], none)
      | (_, some e) => (dst, some e)
termination_by (sizeOf entries, 1, 0)

/-- Entry loop of the object serializer (lines 52-70): comma separator after
the first entry, escaped key, colon, then the value obtained by the map lookup
`obj[k.raw]`.  A lookup of an absent key yields Go's nil interface, which
Append prints as `null`; the model inlines that value of Append since the
entry's key is then unrelated to the recursion measure. -/
def appendObjectEntries (entries : List (List Nat × Value)) (d : List Nat) :
    List KV → Bool → List Nat × Option Err
  | [], _ => (d, none)
  | k :: ks, first =>
    match appendString (if first then d else d ++ [0x2C]) k.raw with
    | (_, some e) => (d, some e)
    | (d2, none) =>
      match hlook : lookupVal entries k.raw with
      | some v =>
        have hsz : sizeOf v < sizeOf entries := lookupVal_sizeOf hlook
        match Append (d2 ++ [0x3A]) v with
        | (d4, none) => appendObjectEntries entries d4 ks false
        | (_, some e) => (d, some e)
      | none => appendObjectEntries entries (d2 ++ [0x3A] ++ nullBytes) ks false
termination_by ks _ => (sizeOf entries, 0, ks.length)

end

/-- Values have positive size. -/
theorem value_sizeOf_pos (v : Value) : 1 ≤ sizeOf v := by
  cases v <;> simp <;> omega

/-- Lists have positive size. -/
theorem list_sizeOf_pos {α : Type} [SizeOf α] (l : List α) : 1 ≤ sizeOf l := by
  cases l <;> simp <;> omega

/-- appendString appends: the output extends the destination by a suffix that
depends only on the input string, and the error result does not depend on the
destination. -/
theorem appendString_emits (s : List Nat) (dst : List Nat) :
    appendString dst s = (dst ++ (appendString [] s).1, (appendString [] s).2) := by
  by_cases hv : validUTF8 s = true
  · rw [appendString_valid hv dst, appendString_valid hv []]
    simp
  · have hv2 : validUTF8 s = false := by simpa using hv
    rw [appendString_invalid hv2 dst, appendString_invalid hv2 []]
    simp

/-- The integer arms append: same property for appendIntVal. -/
theorem appendIntVal_emits (t : IntTy) (n : Int) (dst : List Nat) :
    appendIntVal dst t n = (dst ++ (appendIntVal [] t n).1, (appendIntVal [] t n).2) := by
  unfold appendIntVal appendNumberInt
  repeat' split
  all_goals simp

/-- The []uint8 element loop appends. -/
theorem appendSliceU8Elems_emits :
    ∀ (bs : List Nat) (first : Bool) (dst : List Nat),
      appendSliceU8Elems dst bs first =
        (dst ++ (appendSliceU8Elems [] bs first).1, (appendSliceU8Elems [] bs first).2) := by
  intro bs
  induction bs with
  | nil =>
    intro first dst
    simp [appendSliceU8Elems]
  | cons b rest ih =>
    intro first dst
    rw [appendSliceU8Elems, appendSliceU8Elems]
    have hstep : ∀ d : List Nat, appendIntVal d .u8 (b : Int) =
        (d ++ intToDec (b : Int), none) := by
      intro d
      simp [appendIntVal, IntTy.wide, appendNumberInt]
    rw [hstep, hstep]
    cases first
    · simp only [Bool.false_eq_true, if_false]
      rw [ih false (dst ++ [0x2C] ++ intToDec ((b : Int))),
        ih false ([] ++ [0x2C] ++ intToDec ((b : Int)))]
      simp
    · simp only [if_true]
      rw [ih false (dst ++ intToDec ((b : Int))), ih false ([] ++ intToDec ((b : Int)))]
      simp

/-- appendSliceU8 appends. -/
theorem appendSliceU8_emits (bs : List Nat) (dst : List Nat) :
    appendSliceU8 dst bs = (dst ++ (appendSliceU8 [] bs).1, (appendSliceU8 [] bs).2) := by
  unfold appendSliceU8
  rw [appendSliceU8Elems_emits bs true (dst ++ [0x5B]),
    appendSliceU8Elems_emits bs true ([] ++ [0x5B])]
  rcases he : (appendSliceU8Elems [] bs true) with ⟨E, err⟩
  cases err <;> simp

/-- Every encoder of the mutual block appends: the output extends the
destination by a suffix independent of it, and the error result does not
depend on the destination. -/
theorem emits_main : ∀ N : Nat,
    (∀ v : Value, sizeOf v ≤ N → ∀ dst,
      Append dst v = (dst ++ (Append [] v).1, (Append [] v).2)) ∧
    (∀ xs : List Value, sizeOf xs ≤ N → ∀ (first : Bool) (dst : List Nat),
      appendSliceElems dst xs first =
        (dst ++ (appendSliceElems [] xs first).1, (appendSliceElems [] xs first).2)) ∧
    (∀ entries : List (List Nat × Value), sizeOf entries ≤ N →
      ∀ (ks : List KV) (first : Bool) (dst : List Nat),
      appendObjectEntries entries dst ks first =
        (dst ++ (appendObjectEntries entries [] ks first).1,
          (appendObjectEntries entries [] ks first).2)) := by
  intro N
  induction N with
  | zero =>
    refine ⟨fun v hv => absurd hv (by have := value_sizeOf_pos v; omega),
      fun xs hx => absurd hx (by have := list_sizeOf_pos xs; omega),
      fun es he => absurd he (by have := list_sizeOf_pos es; omega)⟩
  | succ N ih =>
    refine ⟨?_, ?_, ?_⟩
    · intro v hsz dst
      match v with
      | .vnull => simp [Append]
      | .vbool true => simp [Append]
      | .vbool false => simp [Append]
      | .vstr s =>
        simp only [Append]
        exact appendString_emits s dst
      | .vint t n =>
        simp only [Append]
        exact appendIntVal_emits t n dst
      | .vbytes bs =>
        simp only [Append]
        exact appendSliceU8_emits bs dst
      | .vunsupported => simp [Append]
      | .varr xs =>
        have hxs : sizeOf xs ≤ N := by
          simp only [Value.varr.sizeOf_spec] at hsz
          omega
        simp only [Append, appendSlice]
        rw [ih.2.1 xs hxs true (dst ++ [0x5B]), ih.2.1 xs hxs true ([] ++ [0x5B])]
        rcases he : (appendSliceElems [] xs true) with ⟨E, err⟩
        cases err <;> simp
      | .vobj entries =>
        have hes : sizeOf entries ≤ N := by
          simp only [Value.vobj.sizeOf_spec] at hsz
          omega
        simp only [Append, appendObject]
        by_cases hemp : entries.isEmpty
        · rw [if_pos hemp, if_pos hemp]
          simp
        · rw [if_neg hemp, if_neg hemp]
          rcases hbk : buildKVs entries with e | kvs
          · simp
          · simp only [List.nil_append]
            rw [ih.2.2 entries hes (sortKVs kvs) true (dst ++ [0x7B]),
              ih.2.2 entries hes (sortKVs kvs) true [0x7B]]
            rcases he : appendObjectEntries entries [] (sortKVs kvs) true with ⟨E, err⟩
            cases err <;> simp
    · intro xs hsz first dst
      match xs with
      | [] => simp [appendSliceElems]
      | x :: rest =>
        have hx : sizeOf x ≤ N := by
          simp only [List.cons.sizeOf_spec] at hsz
          omega
        have hr : sizeOf rest ≤ N := by
          simp only [List.cons.sizeOf_spec] at hsz
          have := value_sizeOf_pos x
          omega
        rw [appendSliceElems, appendSliceElems]
        rw [show (if first then dst else dst ++ [0x2C]) =
            dst ++ (if first then [] else [0x2C]) by cases first <;> simp]
        rw [ih.1 x hx (dst ++ (if first then [] else [0x2C])),
          ih.1 x hx (if first then [] else ([] : List Nat) ++ [0x2C])]
        rcases hax : Append [] x with ⟨X, xerr⟩
        cases xerr with
        | none =>
          simp only
          rw [ih.2.1 rest hr false (dst ++ (if first then [] else [0x2C]) ++ X)]
          rw [show (if first then ([] : List Nat) else [] ++ [0x2C]) =
              (if first then [] else [0x2C]) by cases first <;> simp]
          rw [ih.2.1 rest hr false ((if first then ([] : List Nat) else [0x2C]) ++ X)]
          rcases har : appendSliceElems [] rest false with ⟨R, rerr⟩
          cases rerr <;> simp
        | some e => simp
    · intro entries hsz ks
      induction ks with
      | nil =>
        intro first dst
        simp [appendObjectEntries]
      | cons k ks ihk =>
        intro first dst
        rw [appendObjectEntries, appendObjectEntries]
        rw [show (if first then dst else dst ++ [0x2C]) =
            dst ++ (if first then [] else [0x2C]) by cases first <;> simp]
        rw [show (if first then ([] : List Nat) else [] ++ [0x2C]) =
            (if first then [] else [0x2C]) by cases first <;> simp]
        rw [appendString_emits k.raw (dst ++ (if first then [] else [0x2C])),
          appendString_emits k.raw (if first then [] else [0x2C])]
        rcases hsr : appendString [] k.raw with ⟨S, serr⟩
        cases serr with
        | some e => simp
        | none =>
          simp only
          match hlook : lookupVal entries k.raw with
          | none =>
            dsimp only
            rw [ihk false (dst ++ (if first then [] else [0x2C]) ++ S ++ [0x3A] ++ nullBytes),
              ihk false ((if first then [] else [0x2C]) ++ S ++ [0x3A] ++ nullBytes)]
            rcases hrest : appendObjectEntries entries [] ks false with ⟨R, rerr⟩
            cases rerr <;> simp
          | some v =>
            dsimp only
            have hv : sizeOf v ≤ N := by
              have := lookupVal_sizeOf hlook
              omega
            rw [ih.1 v hv (dst ++ (if first then [] else [0x2C]) ++ S ++ [0x3A]),
              ih.1 v hv ((if first then [] else [0x2C]) ++ S ++ [0x3A])]
            rcases hav : Append [] v with ⟨X, xerr⟩
            cases xerr with
            | none =>
              simp only
              rw [ihk false (dst ++ (if first then [] else [0x2C]) ++ S ++ [0x3A] ++ X),
                ihk false ((if first then [] else [0x2C]) ++ S ++ [0x3A] ++ X)]
              rcases hrest : appendObjectEntries entries [] ks false with ⟨R, rerr⟩
              cases rerr <;> simp
            | some e => simp

/-- Append appends: the output extends the destination by a suffix that
depends only on the encoded value. -/
theorem Append_emits (v : Value) (dst : List Nat) :
    Append dst v = (dst ++ (Append [] v).1, (Append [] v).2) :=
  ((emits_main (sizeOf v)).1 v le_rfl dst)

/-- A failing appendString returns the destination exactly as received. -/
theorem appendString_rollback (s dst : List Nat) :
    (appendString dst s).2 ≠ none → (appendString dst s).1 = dst := by
  unfold appendString
  split
  · intro h
    simp at h
  · intro _
    rfl

/-- A failing appendObject returns the destination exactly as received. -/
theorem appendObject_rollback (entries : List (List Nat × Value)) (dst : List Nat) :
    (appendObject dst entries).2 ≠ none → (appendObject dst entries).1 = dst := by
  rw [appendObject]
  split
  · intro h
    simp at h
  · split
    · intro _
      rfl
    · split
      · intro h
        simp at h
      · intro _
        rfl

/-- A failing appendSlice returns the destination exactly as received. -/
theorem appendSlice_rollback (xs : List Value) (dst : List Nat) :
    (appendSlice dst xs).2 ≠ none → (appendSlice dst xs).1 = dst := by
  rw [appendSlice]
  split
  · intro h
    simp at h
  · intro _
    rfl

/-- A failing appendSliceU8 returns the destination exactly as received. -/
theorem appendSliceU8_rollback (bs : List Nat) (dst : List Nat) :
    (appendSliceU8 dst bs).2 ≠ none → (appendSliceU8 dst bs).1 = dst := by
  unfold appendSliceU8
  split
  · intro h
    simp at h
  · intro _
    rfl

/-- A failing appendIntVal returns the destination exactly as received. -/
theorem appendIntVal_rollback (t : IntTy) (n : Int) (dst : List Nat) :
    (appendIntVal dst t n).2 ≠ none → (appendIntVal dst t n).1 = dst := by
  unfold appendIntVal appendNumberInt
  repeat' split
  all_goals intro h
  all_goals first
    | rfl
    | simp at h

/-- A failing Append returns the destination exactly as received. -/
theorem Append_rollback (v : Value) (dst : List Nat) :
    (Append dst v).2 ≠ none → (Append dst v).1 = dst := by
  match v with
  | .vnull =>
    rw [Append]
    intro h
    simp at h
  | .vbool true =>
    rw [Append]
    intro h
    simp at h
  | .vbool false =>
    rw [Append]
    intro h
    simp at h
  | .vstr s =>
    rw [Append]
    exact appendString_rollback s dst
  | .vint t n =>
    rw [Append]
    exact appendIntVal_rollback t n dst
  | .vbytes bs =>
    rw [Append]
    exact appendSliceU8_rollback bs dst
  | .varr xs =>
    rw [Append]
    exact appendSlice_rollback xs dst
  | .vobj entries =>
    rw [Append]
    exact appendObject_rollback entries dst
  | .vunsupported =>
    rw [Append]
    intro _
    rfl

/-- Comma-separated concatenation: the first piece plain, every further piece
preceded by the separator. -/
def sepJoin (sep : List Nat) : List (List Nat) → List Nat
  | [] => []
  | x :: rest => x ++ (rest.map (fun y => sep ++ y)).flatten

/-- Decimal rendering of a nonnegative integer has no sign. -/
theorem intToDec_natCast (b : Nat) : intToDec (b : Int) = natToDec b := by
  unfold intToDec
  rw [if_neg (by omega)]
  simp

/-- The u8 arm of the integer dispatch never checks bounds and never fails. -/
theorem appendIntVal_u8 (d : List Nat) (b : Nat) :
    appendIntVal d .u8 (b : Int) = (d ++ natToDec b, none) := by
  simp [appendIntVal, IntTy.wide, appendNumberInt, intToDec_natCast]

/-- Non-first element loop of the []uint8 serializer: every element rendered
with a preceding comma. -/
theorem appendSliceU8Elems_false :
    ∀ (bs : List Nat) (d : List Nat),
      appendSliceU8Elems d bs false =
        (d ++ (bs.map (fun b => [0x2C] ++ natToDec b)).flatten, none) := by
  intro bs
  induction bs with
  | nil =>
    intro d
    simp [appendSliceU8Elems]
  | cons b rest ih =>
    intro d
    rw [appendSliceU8Elems]
    simp only [Bool.false_eq_true, if_false]
    rw [appendIntVal_u8]
    dsimp only
    rw [ih]
    simp

/-- Element loop of the []uint8 serializer from the start: comma-separated
decimal renderings. -/
theorem appendSliceU8Elems_true (bs : List Nat) (d : List Nat) :
    appendSliceU8Elems d bs true = (d ++ sepJoin [0x2C] (bs.map natToDec), none) := by
  cases bs with
  | nil => simp [appendSliceU8Elems, sepJoin]
  | cons b rest =>
    rw [appendSliceU8Elems]
    simp only [if_true]
    rw [appendIntVal_u8]
    dsimp only
    rw [appendSliceU8Elems_false]
    simp [sepJoin, List.map_map, Function.comp_def]

/-- A byte viewed as a Go uint8 value. -/
def u8Val (b : Nat) : Value := .vint .u8 (b : Int)

/-- The generic sequence serializer on uint8-dispatched elements coincides
with the []uint8 loop. -/
theorem appendSliceElems_u8 :
    ∀ (bs : List Nat) (first : Bool) (d : List Nat),
      appendSliceElems d (bs.map u8Val) first = appendSliceU8Elems d bs first := by
  intro bs
  induction bs with
  | nil =>
    intro first d
    simp [appendSliceElems, appendSliceU8Elems]
  | cons b rest ih =>
    intro first d
    rw [List.map_cons, appendSliceElems, appendSliceU8Elems]
    have hred : Append (if first then d else d ++ [0x2C]) (u8Val b) =
        ((if first then d else d ++ [0x2C]) ++ natToDec b, none) := by
      rw [u8Val, Append]
      exact appendIntVal_u8 _ b
    rw [hred, appendIntVal_u8]
    dsimp only
    exact ih false _

/-- C5: whenever Append (or appendString or appendObject) returns an error of
any kind, the returned buffer is exactly the destination buffer received at
entry, so in particular it has the entry length — no partial output survives
a failed encode. -/
theorem c5_error_rollback (v : Value) (s : List Nat) (entries : List (List Nat × Value))
    (dst : List Nat) :
    ((Append dst v).2 ≠ none →
      (Append dst v).1 = dst ∧ ((Append dst v).1).length = dst.length) ∧
    ((appendString dst s).2 ≠ none →
      (appendString dst s).1 = dst ∧ ((appendString dst s).1).length = dst.length) ∧
    ((appendObject dst entries).2 ≠ none →
      (appendObject dst entries).1 = dst ∧ ((appendObject dst entries).1).length = dst.length) := by
  refine ⟨fun h => ?_, fun h => ?_, fun h => ?_⟩
  · have hb := Append_rollback v dst h
    exact ⟨hb, by rw [hb]⟩
  · have hb := appendString_rollback s dst h
    exact ⟨hb, by rw [hb]⟩
  · have hb := appendObject_rollback entries dst h
    exact ⟨hb, by rw [hb]⟩

/-- Witness for C5: encoding the invalid byte 0xFF as a string fails and the
returned buffer is the original destination. -/
theorem c5_error_rollback_witness :
    (Append [0x61] (.vstr [0xFF])).2 ≠ none ∧ (Append [0x61] (.vstr [0xFF])).1 = [0x61] := by
  have h : (Append [0x61] (Value.vstr [0xFF])).2 ≠ none := by
    simp [Append, appendString, appendStringLoop, isSafeASCII, decodeRune]
  exact ⟨h, ((c5_error_rollback (.vstr [0xFF]) [] [] [0x61]).1 h).1⟩

/-- C6: for integer types wider than 32 bits (int, int64, uint, uint64),
Append returns ErrNumberOOR with the buffer unchanged exactly when the
magnitude exceeds 2^53 - 1, the check being a test on the integer value
itself (before conversion to float64); integer types of at most 32 bits never
see the check and always print their exact decimal value. -/
theorem c6_integer_bounds (t : IntTy) (n : Int) (dst : List Nat)
    (hr : t.inRange n = true) :
    (t.wide = true →
      ((2 ^ 53 - 1 : Nat) < n.natAbs → Append dst (.vint t n) = (dst, some .numberOOR)) ∧
      (n.natAbs ≤ 2 ^ 53 - 1 → Append dst (.vint t n) = (dst ++ intToDec n, none))) ∧
    (t.wide = false → Append dst (.vint t n) = (dst ++ intToDec n, none)) := by
  refine ⟨fun hw => ⟨fun hoor => ?_, fun hin => ?_⟩, fun hnw => ?_⟩
  · rw [Append, appendIntVal, if_pos hw, if_pos (by simp only [isNumberOOR]; simpa using hoor)]
  · rw [Append, appendIntVal, if_pos hw,
      if_neg (by simp only [isNumberOOR, decide_eq_true_eq]; omega)]
    rfl
  · rw [Append, appendIntVal, if_neg (by simp [hnw])]
    rfl

/-- Witness for C6: int64 2^53 is rejected with NumberOutOfRange and an
unchanged buffer; uint8 255 prints as 255. -/
theorem c6_integer_bounds_witness :
    IntTy.inRange .i64 (2 ^ 53) = true ∧
    Append [] (.vint .i64 (2 ^ 53)) = ([], some .numberOOR) ∧
    IntTy.inRange .u8 255 = true ∧
    Append [] (.vint .u8 255) = ([0x32, 0x35, 0x35], none) := by
  have h1 : IntTy.inRange .i64 (2 ^ 53) = true := by decide
  have h2 : IntTy.inRange .u8 255 = true := by decide
  have ha := ((c6_integer_bounds .i64 (2 ^ 53) [] h1).1 rfl).1 (by decide)
  have hb := (c6_integer_bounds .u8 255 [] h2).2 rfl
  refine ⟨h1, ha, h2, ?_⟩
  rw [hb]
  rw [show intToDec (255 : Int) = natToDec 255 from by
    rw [intToDec, if_neg (by decide)]
    rfl]
  simp [natToDec]

/-- C10: Append on a []uint8 value always succeeds, encoding the bytes as a
JSON array of their decimal values — exactly the encoding of the same bytes
dispatched as a general integer slice — never as a base64 or quoted string,
and never with a range error; the bytes 1 and 2 encode to the array text
[1,2]. -/
theorem c10_uint8_slice (dst : List Nat) (bs : List Nat) :
    Append dst (.vbytes bs) =
      (dst ++ [0x5B] ++ sepJoin [0x2C] (bs.map natToDec) ++ [0x5D], none) ∧
    Append dst (.vbytes bs) = Append dst (.varr (bs.map u8Val)) ∧
    Append [] (.vbytes [1, 2]) = ([0x5B, 0x31, 0x2C, 0x32, 0x5D], none) := by
  refine ⟨?_, ?_, ?_⟩
  · rw [Append, appendSliceU8, appendSliceU8Elems_true]
  · simp only [Append]
    rw [appendSliceU8, appendSlice, appendSliceElems_u8]
  · simp [Append, appendSliceU8, appendSliceU8Elems, appendIntVal, IntTy.wide, isNumberOOR,
      appendNumberInt, intToDec, natToDec]

/-- C3: for every string whose bytes are valid UTF-8, appendString appends
the input wrapped in double quotes, transformed scalar by scalar by exactly
the stated rules (escapeSpec): ASCII bytes in [0x20, 0x7E] other than the
quote and the backslash verbatim, the quote and the backslash escaped with a
backslash, the five short escapes for backspace, tab, newline, form feed and
carriage return, \u00XX with lowercase hex for every other byte below 0x20,
and every valid non-ASCII scalar copied as its original UTF-8 bytes with no
\uXXXX escaping. -/
theorem c3_appendString_escaping (s dst : List Nat) (hv : validUTF8 s = true) :
    appendString dst s = (dst ++ [0x22] ++ escapeSpec s ++ [0x22], none) :=
  appendString_valid hv dst

/-- Witness for C3 on the string "a, quote, tab, U+0001, é": the escaper
copies the safe byte, escapes the quote, the tab and the control byte, and
copies the two-byte scalar verbatim. -/
theorem c3_appendString_escaping_witness :
    validUTF8 [0x61, 0x22, 0x09, 0x01, 0xC3, 0xA9] = true ∧
    appendString [] [0x61, 0x22, 0x09, 0x01, 0xC3, 0xA9] =
      ([0x22, 0x61, 0x5C, 0x22, 0x5C, 0x74, 0x5C, 0x75, 0x30, 0x30, 0x30, 0x31,
        0xC3, 0xA9, 0x22], none) := by
  have hv : validUTF8 [0x61, 0x22, 0x09, 0x01, 0xC3, 0xA9] = true := by
    simp [validUTF8, decodeRune, accLo, accHi]
  refine ⟨hv, ?_⟩
  rw [c3_appendString_escaping _ [] hv]
  simp [escapeSpec, decodeRune, isSafeASCII, hexDigit, accLo, accHi]

/-- C7: appendString fails, always with ErrInvalidUTF8, exactly on the inputs
that are not valid UTF-8 — not a concatenation of canonical encodings of
Unicode scalar values, which excludes invalid single bytes, truncated
multi-byte sequences, overlong encodings, out-of-range code points and
surrogate encodings — with the single exception that the literal three-byte
encoding EF BF BD of U+FFFD is accepted and passed through unescaped. -/
theorem c7_appendString_error_iff (s dst : List Nat) :
    ((appendString dst s).2 = some .invalidUTF8 ↔ ¬ isUTF8 s) ∧
    ((appendString dst s).2 ≠ none ↔ (appendString dst s).2 = some .invalidUTF8) ∧
    appendString dst [0xEF, 0xBF, 0xBD] = (dst ++ [0x22, 0xEF, 0xBF, 0xBD, 0x22], none) := by
  have hFFFD : validUTF8 [0xEF, 0xBF, 0xBD] = true := by
    simp [validUTF8, decodeRune, accLo, accHi]
  refine ⟨?_, ?_, ?_⟩
  · by_cases hv : validUTF8 s = true
    · rw [appendString_valid hv dst]
      simp only
      constructor
      · intro h
        exact absurd h (by simp)
      · intro h
        exact absurd ((validUTF8_iff s).mp hv) h
    · have hv2 : validUTF8 s = false := by simpa using hv
      rw [appendString_invalid hv2 dst]
      simp only
      constructor
      · intro _ hu
        rw [(validUTF8_iff s).mpr hu] at hv2
        simp at hv2
      · intro _
        trivial
  · by_cases hv : validUTF8 s = true
    · rw [appendString_valid hv dst]
      simp
    · have hv2 : validUTF8 s = false := by simpa using hv
      rw [appendString_invalid hv2 dst]
      simp
  · rw [appendString_valid hFFFD dst]
    have he : escapeSpec [0xEF, 0xBF, 0xBD] = [0xEF, 0xBF, 0xBD] := by
      simp [escapeSpec, decodeRune, accLo, accHi]
    rw [he]
    simp

/-- Counterexample to C4 as stated: on the input consisting of "A" followed
by the invalid byte 0xFF, appendUTF16 fails with ErrInvalidUTF8 yet the
returned buffer is not empty — the code unit for the scalar decoded before
the malformed byte has been appended and survives in the returned buffer. -/
theorem c4_counterexample :
    (appendUTF16 [] [0x41, 0xFF]).2.2 = some .invalidUTF8 ∧
    (appendUTF16 [] [0x41, 0xFF]).1 ≠ ([] : List Nat) ∧
    (appendUTF16 [] [0x41, 0xFF]).1 = [0x41] := by
  refine ⟨?_, ?_, ?_⟩ <;> simp [appendUTF16, appendUTF16Loop, decodeRune]

/-- C4 amended: appendUTF16 fails with ErrInvalidUTF8 and returns unit count
0 exactly on the malformed inputs on which the string escaper fails — the
units already appended for scalars decoded before the malformed sequence
remain in the returned buffer — and on every valid UTF-8 string it succeeds,
appending the UTF-16 units (one unit per scalar below U+10000, a high/low
surrogate pair per scalar at or above U+10000) and returning their count. -/
theorem c4_appendUTF16_amended (s buf : List Nat) :
    (validUTF8 s = true →
      appendUTF16 buf s = (buf ++ strUnits s, (strUnits s).length, none)) ∧
    (validUTF8 s = false →
      (appendUTF16 buf s).2.2 = some .invalidUTF8 ∧ (appendUTF16 buf s).2.1 = 0) ∧
    ((appendUTF16 buf s).2.2 ≠ none ↔ (appendString [] s).2 ≠ none) := by
  have hmain : (validUTF8 s = true →
      appendUTF16 buf s = (buf ++ strUnits s, (strUnits s).length, none)) ∧
      (validUTF8 s = false →
        (appendUTF16 buf s).2.2 = some .invalidUTF8 ∧ (appendUTF16 buf s).2.1 = 0) := by
    constructor
    · intro hv
      unfold appendUTF16
      rw [appendUTF16Loop_valid s.length s le_rfl hv buf]
      simp
    · intro hv
      have hl := appendUTF16Loop_invalid s.length s le_rfl hv buf
      unfold appendUTF16
      rcases hL : appendUTF16Loop buf s with ⟨b2, e⟩
      rw [hL] at hl
      simp only at hl
      rw [hl]
      simp
  refine ⟨hmain.1, hmain.2, ?_⟩
  by_cases hv : validUTF8 s = true
  · rw [hmain.1 hv, appendString_valid hv []]
  · have hv2 : validUTF8 s = false := by simpa using hv
    have h2 := hmain.2 hv2
    rw [appendString_invalid hv2 [], h2.1]

/-- Witness for C4 amended: the emoji U+1F600 lowers to its surrogate pair
with count 2; the input "A" followed by 0xFF fails with count 0. -/
theorem c4_appendUTF16_amended_witness :
    validUTF8 [0xF0, 0x9F, 0x98, 0x80] = true ∧
    appendUTF16 [] [0xF0, 0x9F, 0x98, 0x80] = ([0xD83D, 0xDE00], 2, none) ∧
    validUTF8 [0x41, 0xFF] = false ∧
    (appendUTF16 [] [0x41, 0xFF]).2.2 = some .invalidUTF8 ∧
    (appendUTF16 [] [0x41, 0xFF]).2.1 = 0 := by
  have hv : validUTF8 [0xF0, 0x9F, 0x98, 0x80] = true := by
    simp [validUTF8, decodeRune, accLo, accHi]
  have hv2 : validUTF8 [0x41, 0xFF] = false := by
    simp [validUTF8, decodeRune]
  have h1 := (c4_appendUTF16_amended [0xF0, 0x9F, 0x98, 0x80] []).1 hv
  have h2 := (c4_appendUTF16_amended [0x41, 0xFF] []).2.1 hv2
  refine ⟨hv, ?_, hv2, h2.1, h2.2⟩
  rw [h1]
  simp [strUnits, decodeRune, accLo, accHi, runeUnits, utf16Hi, utf16Lo]

/-- C9: the U+FFFD exception also holds in UTF-16 lowering: the literal
three-byte encoding EF BF BD of U+FFFD lowers without error to the single
code unit 0xFFFD, and an object whose key contains a literal replacement
character is sorted and encoded without error. -/
theorem c9_fffd_lowering (buf : List Nat) :
    appendUTF16 buf [0xEF, 0xBF, 0xBD] = (buf ++ [0xFFFD], 1, none) ∧
    Append [] (.vobj [([0xEF, 0xBF, 0xBD], .vint .u8 1), ([0x61], .vint .u8 2)]) =
      ([0x7B, 0x22, 0x61, 0x22, 0x3A, 0x32, 0x2C, 0x22, 0xEF, 0xBF, 0xBD, 0x22, 0x3A,
        0x31, 0x7D], none) := by
  constructor
  · simp [appendUTF16, appendUTF16Loop, decodeRune, accLo, accHi]
  · simp [Append, appendObject, appendObjectEntries, buildKVs, sortKVs, appendUTF16,
      appendUTF16Loop, decodeRune, accLo, accHi, appendString, appendStringLoop, isSafeASCII,
      appendIntVal, IntTy.wide, isNumberOOR, appendNumberInt, intToDec, natToDec, lookupVal,
      List.insertionSort, List.orderedInsert, kvLE, cmpUnits, nullBytes]

/-- The key comparator is irreflexive. -/
theorem cmpUnits_irrefl (a : List Nat) : cmpUnits a a = false := by
  induction a with
  | nil => rfl
  | cons x xs ih =>
    rw [cmpUnits, if_pos rfl]
    exact ih

/-- The key comparator is asymmetric. -/
theorem cmpUnits_asymm : ∀ a b : List Nat, cmpUnits a b = true → cmpUnits b a = false := by
  intro a
  induction a with
  | nil =>
    intro b h
    cases b with
    | nil => simp [cmpUnits] at h
    | cons y ys => rfl
  | cons x xs ih =>
    intro b h
    cases b with
    | nil => simp [cmpUnits] at h
    | cons y ys =>
      rw [cmpUnits] at h ⊢
      by_cases hxy : x = y
      · subst hxy
        rw [if_pos rfl] at h ⊢
        exact ih ys h
      · rw [if_neg hxy] at h
        rw [if_neg (Ne.symm hxy)]
        simp only [decide_eq_true_eq] at h
        simp only [decide_eq_false_iff_not]
        omega

/-- The key comparator is transitive. -/
theorem cmpUnits_trans :
    ∀ a b c : List Nat, cmpUnits a b = true → cmpUnits b c = true → cmpUnits a c = true := by
  intro a
  induction a with
  | nil =>
    intro b c hab hbc
    cases b with
    | nil => simp [cmpUnits] at hab
    | cons y ys =>
      cases c with
      | nil => simp [cmpUnits] at hbc
      | cons z zs => rfl
  | cons x xs ih =>
    intro b c hab hbc
    cases b with
    | nil => simp [cmpUnits] at hab
    | cons y ys =>
      cases c with
      | nil => simp [cmpUnits] at hbc
      | cons z zs =>
        rw [cmpUnits] at hab hbc ⊢
        by_cases hxy : x = y
        · subst hxy
          rw [if_pos rfl] at hab
          by_cases hyz : x = z
          · subst hyz
            rw [if_pos rfl] at hbc ⊢
            exact ih ys zs hab hbc
          · rw [if_neg hyz] at hbc ⊢
            exact hbc
        · rw [if_neg hxy] at hab
          simp only [decide_eq_true_eq] at hab
          by_cases hyz : y = z
          · subst hyz
            rw [if_neg hxy]
            simp only [decide_eq_true_eq]
            omega
          · rw [if_neg hyz] at hbc
            simp only [decide_eq_true_eq] at hbc
            rw [if_neg (by omega)]
            simp only [decide_eq_true_eq]
            omega

/-- The key comparator is connected: distinct unit lists compare one way or
the other. -/
theorem cmpUnits_conn :
    ∀ a b : List Nat, a ≠ b → cmpUnits a b = true ∨ cmpUnits b a = true := by
  intro a
  induction a with
  | nil =>
    intro b hne
    cases b with
    | nil => exact absurd rfl hne
    | cons y ys => exact Or.inl rfl
  | cons x xs ih =>
    intro b hne
    cases b with
    | nil => exact Or.inr rfl
    | cons y ys =>
      by_cases hxy : x = y
      · subst hxy
        have hne2 : xs ≠ ys := fun hc => hne (by rw [hc])
        rcases ih ys hne2 with h | h
        · left
          rw [cmpUnits, if_pos rfl]
          exact h
        · right
          rw [cmpUnits, if_pos rfl]
          exact h
      · rcases Nat.lt_or_ge x y with h | h
        · left
          rw [cmpUnits, if_neg hxy]
          simpa using h
        · right
          rw [cmpUnits, if_neg (Ne.symm hxy)]
          simp only [decide_eq_true_eq]
          omega

instance : IsTotal KV kvLE := by
  constructor
  intro a b
  unfold kvLE
  by_cases h : cmpUnits b.units a.units = true
  · right
    exact cmpUnits_asymm _ _ h
  · left
    simpa using h

instance : IsTrans KV kvLE := by
  constructor
  intro a b c hab hbc
  unfold kvLE at *
  by_contra hc
  have hca : cmpUnits c.units a.units = true := by simpa using hc
  rcases em (a.units = b.units) with he | hne
  · rw [he] at hca
    rw [hca] at hbc
    simp at hbc
  · rcases cmpUnits_conn _ _ hne with h1 | h1
    · have h2 := cmpUnits_trans _ _ _ hca h1
      rw [h2] at hbc
      simp at hbc
    · rw [h1] at hab
      simp at hab

/-- UTF-16 units of a valid nonempty string form a nonempty list. -/
theorem strUnits_ne_nil {s : List Nat} (hne : s ≠ []) (hv : validUTF8 s = true) :
    strUnits s ≠ [] := by
  match s with
  | b0 :: rest =>
    rcases hd : decodeRune (b0 :: rest) with ⟨r, n⟩
    rw [validUTF8, hd] at hv
    by_cases hbad : r = 0xFFFD ∧ n = 1
    · rw [if_pos hbad] at hv
      simp at hv
    · rw [strUnits, hd, if_neg hbad]
      unfold runeUnits
      split <;> simp

/-- The UTF-16 lowering is injective on valid UTF-8 strings. -/
theorem strUnits_inj :
    ∀ (k : Nat) (s₁ s₂ : List Nat), s₁.length ≤ k → validUTF8 s₁ = true →
      validUTF8 s₂ = true → strUnits s₁ = strUnits s₂ → s₁ = s₂ := by
  intro k
  induction k with
  | zero =>
    intro s₁ s₂ hlen hv1 hv2 hu
    match s₁ with
    | [] =>
      match s₂ with
      | [] => rfl
      | b :: t =>
        rw [strUnits] at hu
        exact absurd hu.symm (strUnits_ne_nil (by simp) hv2)
    | b :: t => simp at hlen
  | succ k ih =>
    intro s₁ s₂ hlen hv1 hv2 hu
    match s₁ with
    | [] =>
      match s₂ with
      | [] => rfl
      | b :: t =>
        rw [strUnits] at hu
        exact absurd hu.symm (strUnits_ne_nil (by simp) hv2)
    | b₁ :: t₁ =>
      match s₂ with
      | [] =>
        have hz : strUnits ([] : List Nat) = [] := by rw [strUnits]
        rw [hz] at hu
        exact absurd hu (strUnits_ne_nil (by simp) hv1)
      | b₂ :: t₂ =>
        rcases hd1 : decodeRune (b₁ :: t₁) with ⟨r₁, n₁⟩
        rcases hd2 : decodeRune (b₂ :: t₂) with ⟨r₂, n₂⟩
        rw [validUTF8, hd1] at hv1
        rw [validUTF8, hd2] at hv2
        by_cases hbad1 : r₁ = 0xFFFD ∧ n₁ = 1
        · rw [if_pos hbad1] at hv1
          simp at hv1
        by_cases hbad2 : r₂ = 0xFFFD ∧ n₂ = 1
        · rw [if_pos hbad2] at hv2
          simp at hv2
        rw [if_neg hbad1] at hv1
        rw [if_neg hbad2] at hv2
        obtain ⟨htk1, hlen1, hok1, hn1, hn1'⟩ := (decodeRune_inv hd1).resolve_left hbad1
        obtain ⟨htk2, hlen2, hok2, hn2, hn2'⟩ := (decodeRune_inv hd2).resolve_left hbad2
        rw [strUnits, hd1, if_neg hbad1, strUnits, hd2, if_neg hbad2] at hu
        dsimp only at hu hv1 hv2
        have hkey : r₁ = r₂ ∧
            strUnits ((b₁ :: t₁).drop n₁) = strUnits ((b₂ :: t₂).drop n₂) := by
          unfold runeUnits at hu
          by_cases hb1 : r₁ < 0x10000 <;> by_cases hb2 : r₂ < 0x10000
          · rw [if_pos hb1, if_pos hb2] at hu
            simp only [List.cons_append, List.nil_append, List.cons.injEq] at hu
            exact hu
          · rw [if_pos hb1, if_neg hb2] at hu
            simp only [List.cons_append, List.nil_append, List.cons.injEq] at hu
            exfalso
            have h1 := hu.1
            have hhi : 0xD800 ≤ utf16Hi r₂ ∧ utf16Hi r₂ ≤ 0xDBFF := by
              unfold utf16Hi
              rcases hok2 with hs | hs
              · omega
              · omega
            rcases hok1 with hs | hs
            · omega
            · omega
          · rw [if_neg hb1, if_pos hb2] at hu
            simp only [List.cons_append, List.nil_append, List.cons.injEq] at hu
            exfalso
            have h1 := hu.1
            have hhi : 0xD800 ≤ utf16Hi r₁ ∧ utf16Hi r₁ ≤ 0xDBFF := by
              unfold utf16Hi
              rcases hok1 with hs | hs
              · omega
              · omega
            rcases hok2 with hs | hs
            · omega
            · omega
          · rw [if_neg hb1, if_neg hb2] at hu
            simp only [List.cons_append, List.nil_append, List.cons.injEq] at hu
            obtain ⟨hh, hl, ht⟩ := hu
            refine ⟨?_, ht⟩
            unfold utf16Hi at hh
            unfold utf16Lo at hl
            have hb1' : r₁ ≤ 0x10FFFF := by
              rcases hok1 with hs | hs
              · omega
              · exact hs.2
            have hb2' : r₂ ≤ 0x10FFFF := by
              rcases hok2 with hs | hs
              · omega
              · exact hs.2
            omega
        obtain ⟨hr, htails⟩ := hkey
        subst hr
        have hn : n₁ = n₂ := by omega
        have hlen2' : ((b₁ :: t₁).drop n₁).length ≤ k := by
          simp only [List.length_drop, List.length_cons] at *
          omega
        have hdropEq := ih ((b₁ :: t₁).drop n₁) ((b₂ :: t₂).drop n₂) hlen2' hv1 hv2 htails
        have htakeEq : (b₁ :: t₁).take n₁ = (b₂ :: t₂).take n₂ := by
          rw [htk1, htk2]
        have hsplit : (b₁ :: t₁).take n₁ ++ (b₁ :: t₁).drop n₁ =
            (b₂ :: t₂).take n₂ ++ (b₂ :: t₂).drop n₂ := by
          rw [htakeEq, hdropEq]
        rw [List.take_append_drop, List.take_append_drop] at hsplit
        exact hsplit

/-- On a valid key, appendUTF16 from an empty scratch buffer produces exactly
the key's UTF-16 units with their count. -/
theorem appendUTF16_nil_valid (k : List Nat) (hv : validUTF8 k = true) :
    appendUTF16 [] k = (strUnits k, (strUnits k).length, none) := by
  unfold appendUTF16
  rw [appendUTF16Loop_valid k.length k le_rfl hv []]
  simp

/-- On a malformed key, appendUTF16 reports ErrInvalidUTF8. -/
theorem appendUTF16_nil_invalid (k : List Nat) (hv : validUTF8 k = false) :
    (appendUTF16 [] k).2.2 = some .invalidUTF8 := by
  have hl := appendUTF16Loop_invalid k.length k le_rfl hv []
  unfold appendUTF16
  rcases hL : appendUTF16Loop [] k with ⟨b2, e⟩
  rw [hL] at hl
  simp only at hl
  rw [hl]

/-- When every key is valid UTF-8, the key collection succeeds and each key
is recorded with its UTF-16 unit span. -/
theorem buildKVs_ok :
    ∀ entries : List (List Nat × Value), (∀ e ∈ entries, validUTF8 e.1 = true) →
      buildKVs entries = .ok (entries.map (fun e => KV.mk e.1 (strUnits e.1))) := by
  intro entries
  induction entries with
  | nil => intro _; rfl
  | cons e rest ih =>
    intro hall
    match e with
    | (k, v) =>
      have hk : validUTF8 k = true := hall (k, v) (by simp)
      rw [buildKVs, appendUTF16_nil_valid k hk]
      dsimp only
      rw [ih (fun x hx => hall x (by simp [hx]))]
      rfl

/-- When some key is malformed, the key collection fails with
ErrInvalidUTF8. -/
theorem buildKVs_err :
    ∀ entries : List (List Nat × Value), ¬(∀ e ∈ entries, validUTF8 e.1 = true) →
      buildKVs entries = .error .invalidUTF8 := by
  intro entries
  induction entries with
  | nil => intro hbad; exact absurd (by simp) hbad
  | cons e rest ih =>
    intro hbad
    match e with
    | (k, v) =>
      by_cases hk : validUTF8 k = true
      · have hrest : ¬ ∀ x ∈ rest, validUTF8 x.1 = true := by
          intro hc
          refine hbad ?_
          intro x hx
          rcases List.mem_cons.mp hx with rfl | hx2
          · exact hk
          · exact hc x hx2
        rw [buildKVs, appendUTF16_nil_valid k hk]
        dsimp only
        rw [ih hrest]
      · have hk2 : validUTF8 k = false := by simpa using hk
        rw [buildKVs]
        rcases hE : appendUTF16 [] k with ⟨us, cnt, err⟩
        have herr := appendUTF16_nil_invalid k hk2
        rw [hE] at herr
        simp only at herr
        rw [herr]

/-- Looking up the key of an entry of a map with unique keys returns that
entry's value. -/
theorem lookupVal_self :
    ∀ l : List (List Nat × Value), (l.map Prod.fst).Nodup →
      ∀ e ∈ l, lookupVal l e.1 = some e.2 := by
  intro l
  induction l with
  | nil => simp
  | cons p rest ih =>
    intro hnd e he
    match p with
    | (k, v) =>
      rw [lookupVal]
      rcases List.mem_cons.mp he with rfl | he2
      · rw [if_pos rfl]
      · have hk : e.1 ∈ rest.map Prod.fst := List.mem_map_of_mem _ he2
        simp only [List.map_cons, List.nodup_cons] at hnd
        rw [if_neg (fun hc => hnd.1 (by rw [hc]; exact hk))]
        exact ih hnd.2 e he2

/-- A successful lookup returns an entry of the list. -/
theorem lookupVal_mem :
    ∀ {l : List (List Nat × Value)} {k : List Nat} {v : Value},
      lookupVal l k = some v → (k, v) ∈ l := by
  intro l
  induction l with
  | nil => intro k v h; simp [lookupVal] at h
  | cons p rest ih =>
    intro k v h
    match p with
    | (k', v') =>
      rw [lookupVal] at h
      split at h
      · obtain rfl := Option.some.inj h
        rename_i heq
        subst heq
        exact List.mem_cons_self _ _
      · exact List.mem_cons_of_mem _ (ih h)

/-- A lookup fails exactly when the key is absent. -/
theorem lookupVal_none_iff :
    ∀ (l : List (List Nat × Value)) (k : List Nat),
      lookupVal l k = none ↔ k ∉ l.map Prod.fst := by
  intro l
  induction l with
  | nil => intro k; simp [lookupVal]
  | cons p rest ih =>
    intro k
    match p with
    | (k', v') =>
      rw [lookupVal]
      by_cases hk : k' = k
      · subst hk
        rw [if_pos rfl]
        simp
      · rw [if_neg hk]
        rw [ih k]
        simp only [List.map_cons, List.mem_cons]
        constructor
        · intro h hc
          rcases hc with hc | hc
          · exact hk hc.symm
          · exact h hc
        · intro h hc
          exact h (Or.inr hc)

/-- Lookup agrees on permutations of a map with unique keys. -/
theorem lookupVal_perm {l₁ l₂ : List (List Nat × Value)}
    (hnd : (l₁.map Prod.fst).Nodup) (hp : l₁.Perm l₂) (k : List Nat) :
    lookupVal l₁ k = lookupVal l₂ k := by
  have hnd₂ : (l₂.map Prod.fst).Nodup := ((hp.map Prod.fst).nodup_iff).mp hnd
  cases hL : lookupVal l₁ k with
  | none =>
    have hk := (lookupVal_none_iff l₁ k).mp hL
    have hk₂ : k ∉ l₂.map Prod.fst := fun hc => hk (((hp.map Prod.fst).mem_iff).mpr hc)
    exact ((lookupVal_none_iff l₂ k).mpr hk₂).symm
  | some v =>
    have hm₂ : (k, v) ∈ l₂ := hp.subset (lookupVal_mem hL)
    exact (lookupVal_self l₂ hnd₂ (k, v) hm₂).symm

/-- Distinct valid keys have distinct UTF-16 unit spans. -/
theorem kvs_units_nodup (entries : List (List Nat × Value))
    (hnd : (entries.map Prod.fst).Nodup)
    (hall : ∀ e ∈ entries, validUTF8 e.1 = true) :
    ((entries.map (fun e => KV.mk e.1 (strUnits e.1))).map KV.units).Nodup := by
  have heq : (entries.map (fun e => KV.mk e.1 (strUnits e.1))).map KV.units =
      (entries.map Prod.fst).map strUnits := by
    simp [List.map_map]
  rw [heq]
  refine List.Nodup.map_on ?_ hnd
  intro x hx y hy hxy
  obtain ⟨ex, hex, hx1⟩ := List.mem_map.mp hx
  obtain ⟨ey, hey, hy1⟩ := List.mem_map.mp hy
  exact strUnits_inj x.length x y le_rfl
    (by rw [← hx1]; exact hall ex hex)
    (by rw [← hy1]; exact hall ey hey) hxy

/-- The sorted key list is strictly ascending under the UTF-16 comparator
whenever the unit spans are distinct. -/
theorem sortKVs_strict (kvs : List KV) (hnd : (kvs.map KV.units).Nodup) :
    (sortKVs kvs).Pairwise (fun a b => cmpUnits a.units b.units = true) := by
  have hs : (sortKVs kvs).Sorted kvLE := List.sorted_insertionSort kvLE kvs
  have hperm : (sortKVs kvs).Perm kvs := List.perm_insertionSort kvLE kvs
  have hnd2 : ((sortKVs kvs).map KV.units).Nodup := ((hperm.map KV.units).nodup_iff).mpr hnd
  have hpw : (sortKVs kvs).Pairwise (fun a b => a.units ≠ b.units) := by
    have := hnd2
    rw [List.Nodup, List.pairwise_map] at this
    exact this
  refine (List.Pairwise.and hs hpw).imp ?_
  intro a b hab
  rcases cmpUnits_conn a.units b.units hab.2 with h | h
  · exact h
  · exact absurd hab.1 (by unfold kvLE; rw [h]; simp)

/-- A permutation that is strictly sorted on both sides is an equality. -/
theorem strict_sorted_unique :
    ∀ l₁ l₂ : List KV, l₁.Perm l₂ →
      l₁.Pairwise (fun a b => cmpUnits a.units b.units = true) →
      l₂.Pairwise (fun a b => cmpUnits a.units b.units = true) → l₁ = l₂ := by
  intro l₁
  induction l₁ with
  | nil =>
    intro l₂ hp _ _
    exact hp.nil_eq
  | cons x t ih =>
    intro l₂ hp hs₁ hs₂
    match l₂ with
    | [] =>
      have := hp.symm.nil_eq
      simp at this
    | y :: t₂ =>
      by_cases hxy : x = y
      · subst hxy
        rw [ih t₂ hp.cons_inv (List.pairwise_cons.mp hs₁).2 (List.pairwise_cons.mp hs₂).2]
      · have hx2 : x ∈ t₂ := by
          have hm : x ∈ y :: t₂ := hp.subset (by simp)
          rcases List.mem_cons.mp hm with h | h
          · exact absurd h hxy
          · exact h
        have hy1 : y ∈ t := by
          have hm : y ∈ x :: t := hp.symm.subset (by simp)
          rcases List.mem_cons.mp hm with h | h
          · exact absurd h.symm hxy
          · exact h
        have h1 : cmpUnits y.units x.units = true := (List.pairwise_cons.mp hs₂).1 x hx2
        have h2 : cmpUnits x.units y.units = true := (List.pairwise_cons.mp hs₁).1 y hy1
        have h3 := cmpUnits_asymm _ _ h2
        rw [h1] at h3
        simp at h3

/-- Rendering of one object entry as the specification states it: the escaped
key, a colon, and the canonical encoding of the value. -/
def entryRender (e : List Nat × Value) : List Nat :=
  (appendString [] e.1).1 ++ [0x3A] ++ (Append [] e.2).1

/-- Characterization of the object entry loop: either it succeeds and the
output is the destination followed by the comma-separated renderings of the
entries — each value obtained by map lookup, an absent key rendering as null,
the value Go's nil lookup result encodes to — or it reports an error. -/
theorem appendObjectEntries_chr :
    ∀ (ks : List KV) (obj : List (List Nat × Value)) (first : Bool) (d : List Nat),
      appendObjectEntries obj d ks first =
        (d ++ (if first then
            sepJoin [0x2C]
              (ks.map (fun kv => entryRender (kv.raw, (lookupVal obj kv.raw).getD .vnull)))
          else
            ((ks.map (fun kv =>
              [0x2C] ++ entryRender (kv.raw, (lookupVal obj kv.raw).getD .vnull))).flatten)),
          none) ∨
      (appendObjectEntries obj d ks first).2 ≠ none := by
  intro ks
  induction ks with
  | nil =>
    intro obj first d
    left
    cases first <;> simp [appendObjectEntries, sepJoin]
  | cons kv rest ih =>
    intro obj first d
    rw [appendObjectEntries]
    rw [show (if first then d else d ++ [0x2C]) = d ++ (if first then [] else [0x2C]) from by
      cases first <;> simp]
    rw [appendString_emits kv.raw]
    rcases hS : appendString [] kv.raw with ⟨S, serr⟩
    cases serr with
    | some e =>
      right
      dsimp only
      simp
    | none =>
      dsimp only
      match hlk : lookupVal obj kv.raw with
      | none =>
        dsimp only
        rcases ih obj false (d ++ (if first then [] else [0x2C]) ++ S ++ [0x3A] ++ nullBytes)
          with hgood | hbad
        · left
          rw [hgood]
          have hval : (Append [] Value.vnull).1 = nullBytes := by
            simp [Append, nullBytes]
          cases first <;>
            simp [sepJoin, entryRender, hS, hlk, hval, List.map_map, Function.comp_def,
              List.append_assoc]
        · right
          exact hbad
      | some v =>
        dsimp only
        rw [Append_emits v]
        rcases hA : Append [] v with ⟨X, xerr⟩
        cases xerr with
        | some e =>
          right
          dsimp only
          simp
        | none =>
          dsimp only
          rcases ih obj false (d ++ (if first then [] else [0x2C]) ++ S ++ [0x3A] ++ X)
            with hgood | hbad
          · left
            rw [hgood]
            cases first <;>
              simp [sepJoin, entryRender, hS, hlk, hA, List.map_map, Function.comp_def,
                List.append_assoc]
          · right
            exact hbad

/-- The object entry loop depends on the map only through lookup. -/
theorem appendObjectEntries_congr :
    ∀ (ks : List KV) (l₁ l₂ : List (List Nat × Value)),
      (∀ k, lookupVal l₁ k = lookupVal l₂ k) →
      ∀ (first : Bool) (d : List Nat),
        appendObjectEntries l₁ d ks first = appendObjectEntries l₂ d ks first := by
  intro ks
  induction ks with
  | nil =>
    intro l₁ l₂ hlk first d
    rw [appendObjectEntries, appendObjectEntries]
  | cons kv rest ih =>
    intro l₁ l₂ hlk first d
    rw [appendObjectEntries, appendObjectEntries]
    rcases hS : appendString (if first then d else d ++ [0x2C]) kv.raw with ⟨d2, serr⟩
    cases serr with
    | some e => rfl
    | none =>
      dsimp only
      have hq := hlk kv.raw
      match hl1 : lookupVal l₁ kv.raw with
      | none =>
        rw [hl1] at hq
        match hl2 : lookupVal l₂ kv.raw with
        | none =>
          dsimp only
          exact ih l₁ l₂ hlk false _
        | some w =>
          rw [hl2] at hq
          simp at hq
      | some v =>
        rw [hl1] at hq
        match hl2 : lookupVal l₂ kv.raw with
        | none =>
          rw [hl2] at hq
          simp at hq
        | some w =>
          rw [hl2] at hq
          obtain rfl := Option.some.inj hq
          dsimp only
          rcases hA : Append (d2 ++ [0x3A]) v with ⟨d4, xerr⟩
          cases xerr with
          | some e => rfl
          | none =>
            dsimp only
            exact ih l₁ l₂ hlk false _

/-- C1: On a map with distinct keys whose serialization succeeds, appendObject
emits `\x7b`, then some permutation of the entries that is strictly ascending in
UTF-16 code-unit lexicographic key order — each entry rendered as escaped key,
`:`, canonical value — separated by `,`, then `\x7d`; the empty map yields
exactly `\x7b\x7d`; the key "a" (U+0061) sorts before the emoji key U+1F600
(whose lead surrogate is 0xD83D), and on a shared prefix of units the shorter
key sorts first. -/
theorem c1_object_sort_order (dst : List Nat) (obj : List (List Nat × Value))
    (hnd : (obj.map Prod.fst).Nodup)
    (hok : (appendObject dst obj).2 = none) :
    (∃ perm : List (List Nat × Value),
        perm.Perm obj ∧
        perm.Pairwise (fun e₁ e₂ => cmpUnits (strUnits e₁.1) (strUnits e₂.1) = true) ∧
        appendObject dst obj =
          (dst ++ [0x7B] ++ sepJoin [0x2C] (perm.map entryRender) ++ [0x7D], none)) ∧
    appendObject dst [] = (dst ++ [0x7B, 0x7D], none) ∧
    cmpUnits (strUnits [0x61]) (strUnits [0xF0, 0x9F, 0x98, 0x80]) = true ∧
    cmpUnits [0x61, 0x62] [0x61, 0x62, 0x63] = true := by
  refine ⟨?_, by simp [appendObject], ?_, by decide⟩
  · by_cases hemp : obj.isEmpty
    · have hnil : obj = [] := List.isEmpty_iff.mp hemp
      subst hnil
      exact ⟨[], List.Perm.refl _, List.Pairwise.nil, by simp [appendObject, sepJoin]⟩
    · have hall : ∀ e ∈ obj, validUTF8 e.1 = true := by
        by_contra hbad
        rw [appendObject, if_neg hemp, buildKVs_err obj hbad] at hok
        simp at hok
      have hbk : buildKVs obj = .ok (obj.map (fun e => KV.mk e.1 (strUnits e.1))) :=
        buildKVs_ok obj hall
      have hstrict := sortKVs_strict (obj.map (fun e => KV.mk e.1 (strUnits e.1)))
        (kvs_units_nodup obj hnd hall)
      have hperm0 : (sortKVs (obj.map (fun e => KV.mk e.1 (strUnits e.1)))).Perm
          (obj.map (fun e => KV.mk e.1 (strUnits e.1))) := List.perm_insertionSort _ _
      rcases appendObjectEntries_chr (sortKVs (obj.map (fun e => KV.mk e.1 (strUnits e.1))))
          obj true (dst ++ [0x7B]) with hgood | hbad2
      · refine ⟨(sortKVs (obj.map (fun e => KV.mk e.1 (strUnits e.1)))).map
            (fun kv => (kv.raw, (lookupVal obj kv.raw).getD Value.vnull)), ?_, ?_, ?_⟩
        · have h1 : (obj.map (fun e => KV.mk e.1 (strUnits e.1))).map
              (fun kv => (kv.raw, (lookupVal obj kv.raw).getD Value.vnull)) = obj := by
            rw [List.map_map]
            have h2 : ∀ e ∈ obj,
                ((fun kv : KV => (kv.raw, (lookupVal obj kv.raw).getD Value.vnull)) ∘
                  (fun e : List Nat × Value => KV.mk e.1 (strUnits e.1))) e = id e := by
              intro e he
              simp [lookupVal_self obj hnd e he]
            rw [List.map_congr_left h2, List.map_id]
          have h3 := hperm0.map (fun kv => (kv.raw, (lookupVal obj kv.raw).getD Value.vnull))
          rw [h1] at h3
          exact h3
        · rw [List.pairwise_map]
          have hcoh : ∀ kv ∈ sortKVs (obj.map (fun e => KV.mk e.1 (strUnits e.1))),
              kv.units = strUnits kv.raw := by
            intro kv hm
            obtain ⟨e, he, hfe⟩ := List.mem_map.mp (hperm0.subset hm)
            rw [← hfe]
          refine hstrict.imp_of_mem ?_
          intro a b ha hb hab
          dsimp only
          rw [← hcoh a ha, ← hcoh b hb]
          exact hab
        · rw [appendObject, if_neg hemp, hbk]
          dsimp only
          rw [hgood]
          dsimp only
          simp [List.map_map, Function.comp_def, List.append_assoc]
      · exfalso
        rw [appendObject, if_neg hemp, hbk] at hok
        dsimp only at hok
        rcases hE : appendObjectEntries obj (dst ++ [0x7B])
            (sortKVs (obj.map (fun e => KV.mk e.1 (strUnits e.1)))) true with ⟨dd, ee⟩
        rw [hE] at hok hbad2
        cases ee with
        | none => exact hbad2 rfl
        | some e =>
          dsimp only at hok
          exact Option.noConfusion hok
  · have h1 : strUnits [0x61] = [0x61] := by
      simp [strUnits, decodeRune, accLo, accHi, runeUnits, utf16Hi, utf16Lo]
    have h2 : strUnits [0xF0, 0x9F, 0x98, 0x80] = [0xD83D, 0xDE00] := by
      simp [strUnits, decodeRune, accLo, accHi, runeUnits, utf16Hi, utf16Lo]
    rw [h1, h2]
    decide

/-- Concrete instance of the object sort-order property: the two-entry map
with keys "b" and "a" has distinct keys, serializes without error, and its
entries are emitted in a strictly ascending key permutation. -/
theorem c1_object_sort_order_witness :
    (([([0x62], Value.vint IntTy.i 1), ([0x61], Value.vint IntTy.i 2)] :
        List (List Nat × Value)).map Prod.fst).Nodup ∧
    (appendObject [] [([0x62], Value.vint IntTy.i 1), ([0x61], Value.vint IntTy.i 2)]).2 =
      none ∧
    (∃ perm : List (List Nat × Value),
        perm.Perm [([0x62], Value.vint IntTy.i 1), ([0x61], Value.vint IntTy.i 2)] ∧
        perm.Pairwise (fun e₁ e₂ => cmpUnits (strUnits e₁.1) (strUnits e₂.1) = true) ∧
        appendObject [] [([0x62], Value.vint IntTy.i 1), ([0x61], Value.vint IntTy.i 2)] =
          ([] ++ [0x7B] ++ sepJoin [0x2C] (perm.map entryRender) ++ [0x7D], none)) := by
  have hnd : (([([0x62], Value.vint IntTy.i 1), ([0x61], Value.vint IntTy.i 2)] :
      List (List Nat × Value)).map Prod.fst).Nodup := by decide
  have hok : (appendObject []
      [([0x62], Value.vint IntTy.i 1), ([0x61], Value.vint IntTy.i 2)]).2 = none := by
    simp [appendObject, appendObjectEntries, buildKVs, sortKVs, appendUTF16,
      appendUTF16Loop, decodeRune, accLo, accHi, appendString, appendStringLoop,
      isSafeASCII, escControl, appendIntVal, IntTy.wide, isNumberOOR, appendNumberInt,
      intToDec, natToDec, lookupVal, List.insertionSort, List.orderedInsert, kvLE,
      cmpUnits, nullBytes, Append]
  exact ⟨hnd, hok, (c1_object_sort_order [] _ hnd hok).1⟩

/-- C8: Encoding is deterministic: Append is a function of its value argument,
and two maps that hold the same key/value pairs in different entry orders
encode byte-identically; in particular both entry orders of a map holding
b:1 and a:2 encode to the bytes of \x7b"a":2,"b":1\x7d. -/
theorem c8_determinism (dst : List Nat) (l₁ l₂ : List (List Nat × Value))
    (hnd : (l₁.map Prod.fst).Nodup) (hp : l₁.Perm l₂) :
    Append dst (Value.vobj l₁) = Append dst (Value.vobj l₂) ∧
    Append [] (Value.vobj [([0x62], Value.vint IntTy.i 1), ([0x61], Value.vint IntTy.i 2)]) =
      ([0x7B, 0x22, 0x61, 0x22, 0x3A, 0x32, 0x2C, 0x22, 0x62, 0x22, 0x3A, 0x31, 0x7D],
        none) ∧
    Append [] (Value.vobj [([0x61], Value.vint IntTy.i 2), ([0x62], Value.vint IntTy.i 1)]) =
      ([0x7B, 0x22, 0x61, 0x22, 0x3A, 0x32, 0x2C, 0x22, 0x62, 0x22, 0x3A, 0x31, 0x7D],
        none) := by
  refine ⟨?_, ?_, ?_⟩
  · simp only [Append]
    by_cases hemp : l₁.isEmpty
    · have h1 : l₁ = [] := List.isEmpty_iff.mp hemp
      subst h1
      have h2 : l₂ = [] := hp.nil_eq.symm
      subst h2
      rfl
    · have hemp₂ : ¬ l₂.isEmpty = true := by
        intro hc
        rw [List.isEmpty_iff.mp hc] at hp
        exact hemp (by rw [hp.eq_nil]; rfl)
      rw [appendObject, appendObject, if_neg hemp, if_neg hemp₂]
      by_cases hall : ∀ e ∈ l₁, validUTF8 e.1 = true
      · have hall₂ : ∀ e ∈ l₂, validUTF8 e.1 = true := fun e he => hall e (hp.symm.subset he)
        rw [buildKVs_ok l₁ hall, buildKVs_ok l₂ hall₂]
        dsimp only
        have hnd₂ : (l₂.map Prod.fst).Nodup := ((hp.map Prod.fst).nodup_iff).mp hnd
        have hps : (sortKVs (l₁.map (fun e => KV.mk e.1 (strUnits e.1)))).Perm
            (sortKVs (l₂.map (fun e => KV.mk e.1 (strUnits e.1)))) := by
          simp only [sortKVs]
          exact ((List.perm_insertionSort kvLE _).trans
            (hp.map (fun e => KV.mk e.1 (strUnits e.1)))).trans
            (List.perm_insertionSort kvLE _).symm
        have hsorteq : sortKVs (l₁.map (fun e => KV.mk e.1 (strUnits e.1))) =
            sortKVs (l₂.map (fun e => KV.mk e.1 (strUnits e.1))) :=
          strict_sorted_unique _ _ hps
            (sortKVs_strict _ (kvs_units_nodup l₁ hnd hall))
            (sortKVs_strict _ (kvs_units_nodup l₂ hnd₂ hall₂))
        rw [hsorteq]
        rw [appendObjectEntries_congr (sortKVs (l₂.map (fun e => KV.mk e.1 (strUnits e.1))))
          l₁ l₂ (lookupVal_perm hnd hp) true (dst ++ [0x7B])]
      · have hall₂ : ¬ ∀ e ∈ l₂, validUTF8 e.1 = true := fun hc =>
          hall (fun e he => hc e (hp.subset he))
        rw [buildKVs_err l₁ hall, buildKVs_err l₂ hall₂]
  · simp [appendObject, appendObjectEntries, buildKVs, sortKVs, appendUTF16,
      appendUTF16Loop, decodeRune, accLo, accHi, appendString, appendStringLoop,
      isSafeASCII, escControl, appendIntVal, IntTy.wide, isNumberOOR, appendNumberInt,
      intToDec, natToDec, lookupVal, List.insertionSort, List.orderedInsert, kvLE,
      cmpUnits, nullBytes, Append]
  · simp [appendObject, appendObjectEntries, buildKVs, sortKVs, appendUTF16,
      appendUTF16Loop, decodeRune, accLo, accHi, appendString, appendStringLoop,
      isSafeASCII, escControl, appendIntVal, IntTy.wide, isNumberOOR, appendNumberInt,
      intToDec, natToDec, lookupVal, List.insertionSort, List.orderedInsert, kvLE,
      cmpUnits, nullBytes, Append]

/-- Concrete instance of the determinism property: the two entry orders of
the map holding b:1 and a:2 have distinct keys, are permutations of one
another, and Append encodes them identically. -/
theorem c8_determinism_witness :
    (([([0x62], Value.vint IntTy.i 1), ([0x61], Value.vint IntTy.i 2)] :
        List (List Nat × Value)).map Prod.fst).Nodup ∧
    ([([0x62], Value.vint IntTy.i 1), ([0x61], Value.vint IntTy.i 2)] :
        List (List Nat × Value)).Perm
      [([0x61], Value.vint IntTy.i 2), ([0x62], Value.vint IntTy.i 1)] ∧
    Append [] (Value.vobj [([0x62], Value.vint IntTy.i 1), ([0x61], Value.vint IntTy.i 2)]) =
      Append [] (Value.vobj [([0x61], Value.vint IntTy.i 2), ([0x62], Value.vint IntTy.i 1)]) := by
  have hnd : (([([0x62], Value.vint IntTy.i 1), ([0x61], Value.vint IntTy.i 2)] :
      List (List Nat × Value)).map Prod.fst).Nodup := by decide
  have hp : ([([0x62], Value.vint IntTy.i 1), ([0x61], Value.vint IntTy.i 2)] :
      List (List Nat × Value)).Perm
      [([0x61], Value.vint IntTy.i 2), ([0x62], Value.vint IntTy.i 1)] :=
    List.Perm.swap _ _ _
  exact ⟨hnd, hp, (c8_determinism [] _ _ hnd hp).1⟩

end JCS
